import Mathlib

/-! # rmate.c : the protocol parser and the file transfer engine

A shallow embedding of `src/rmate.c`.

* A `char*` is the list of the bytes of the array from the pointer to the end
  of the array: `p + n` is `List.drop n`, a store through the pointer is
  `List.set`.  A byte is a natural number (0..255).  A read past the end of the
  array is undefined in C; here it yields no byte (`memchr` stops, `memcpy`
  copies what there is, a string function sees NUL).
* `size_t` and `unsigned long` are 64 bits wide, `ssize_t` is an `Int`.
* The file system and the socket are an explicit `World`: the files, the bytes
  the peer has sent and that are not read yet (in the segments in which they
  arrive), one flag per system call that can fail for a reason of the operating
  system, and a log of the calls made.
-/

namespace Rmate

/-- One `char`. -/
abbrev Byte := Nat

/-- The bytes of a string literal, without the terminating NUL. -/
def bytes (s : String) : List Byte := s.toList.map Char.toNat

/-- The greatest `unsigned long` (and `size_t`). -/
def ULONG_MAX : Nat := 18446744073709551615

/-- The `enum CMD_STATE` of the source. -/
inductive CMD_STATE where
  | CMD_HEADER
  | CMD_CMD
  | CMD_VAR
  | CMD_END
deriving DecidableEq, Repr

/-- The anonymous enum of `struct cmd`: the kind of the command in flight. -/
inductive CMD_TYPE where
  | UNKNOWN
  | CLOSE
  | SAVE
deriving DecidableEq, Repr

/-- The `struct cmd` of the source; `filename` is `none` for a NULL pointer. -/
structure cmd where
  state : CMD_STATE
  cmd_type : CMD_TYPE
  filename : Option (List Byte)
  file_len : Nat
deriving DecidableEq, Repr

/-- The `struct cmd cmd_state = {0}` of `main`. -/
def cmd_zero : cmd := ⟨CMD_STATE.CMD_HEADER, CMD_TYPE.UNKNOWN, none, 0⟩

/-! ## The C library -/

/-- The C string at a pointer: the bytes before the first NUL. -/
def cstr (p : List Byte) : List Byte := p.takeWhile (fun b => b ≠ 0)

/-- The call `memchr(buf, c, len)`: the offset of the first `c` among the first
`len` bytes, `none` for a NULL result. -/
def memchr : List Byte → Byte → Nat → Option Nat
  | [], _, _ => none
  | _ :: _, _, 0 => none
  | b :: bs, c, n + 1 => if b = c then some 0 else (memchr bs c n).map (fun i => i + 1)

/-- The test `!strcmp(a, b)`, where `b` is a literal given without its NUL. -/
def strcmp_eq : List Byte → List Byte → Bool
  | [], b => b.headD 0 = 0
  | x :: a, b => if x ≠ b.headD 0 then false else if x = 0 then true else strcmp_eq a b.tail

/-- The test `!strncmp(a, b, n)`: at most `n` characters are compared and the
comparison stops after a NUL. -/
def strncmp_eq : List Byte → List Byte → Nat → Bool
  | _, _, 0 => true
  | a, b, n + 1 =>
    if a.headD 0 ≠ b.headD 0 then false
    else if a.headD 0 = 0 then true
    else strncmp_eq a.tail b.tail n

/-- The call `strcspn(s, ":")`: the length of the longest initial part of the C
string without a colon. -/
def strcspn_colon (s : List Byte) : Nat := (s.takeWhile (fun b => b ≠ 0 ∧ b ≠ 58)).length

/-- The call `strspn(s, " ")`: the number of leading spaces. -/
def strspn_space (s : List Byte) : Nat := (s.takeWhile (fun b => b = 32)).length

/-- The call `strdup(s)`: a copy of the C string. -/
def strdup (s : List Byte) : List Byte := cstr s

/-- The predicate `isspace` of the C locale. -/
def isspace (b : Byte) : Bool := b = 32 || (9 ≤ b && b ≤ 13)

/-- The predicate `isdigit`. -/
def isdigit (b : Byte) : Bool := 48 ≤ b && b ≤ 57

/-- The call `strtoul(s, NULL, 10)`: white space, an optional sign, decimal
digits; no digit gives 0, a value that does not fit gives `ULONG_MAX`, a minus
sign negates modulo 2^64. -/
def strtoul (s : List Byte) : Nat :=
  let s1 := s.dropWhile isspace
  let neg : Bool := s1.head? = some 45
  let s2 := if s1.head? = some 45 ∨ s1.head? = some 43 then s1.tail else s1
  let v := (s2.takeWhile isdigit).foldl (fun acc d => acc * 10 + (d - 48)) 0
  if v > ULONG_MAX then ULONG_MAX
  else if neg then (ULONG_MAX + 1 - v) % (ULONG_MAX + 1)
  else v

/-! ## The world: files and transport -/

/-- One call that leaves the program, in the order of the source. -/
inductive Event where
  | call_receive_save (rem_buf : List Byte) (rem_buf_len : Nat)
      (filename : Option (List Byte)) (filesize : Nat)
  | sys_open (filename : Option (List Byte))
  | sys_ftruncate (filesize : Nat)
  | sys_mmap (filesize : Nat)
  | sys_read (nbyte : Nat)
deriving DecidableEq, Repr

/-- The file system, the socket and the log of the calls made. -/
structure World where
  files : List (List Byte × List Byte)
  transport : List (List Byte)
  ftruncate_fails : Bool
  mmap_fails : Bool
  read_fails : Bool
  munmap_fails : Bool
  log : List Event
deriving DecidableEq, Repr

/-- The content of the file of a name, `none` when there is no such file. -/
def file_get : List (List Byte × List Byte) → List Byte → Option (List Byte)
  | [], _ => none
  | (n, c) :: fs, name => if n = name then some c else file_get fs name

/-- The files after the content of the file of a name is replaced. -/
def file_set : List (List Byte × List Byte) → List Byte → List Byte →
    List (List Byte × List Byte)
  | [], _, _ => []
  | (n, c) :: fs, name, content =>
    if n = name then (n, content) :: fs else (n, c) :: file_set fs name content

/-- The world with one more logged call. -/
def World.emit (w : World) (e : Event) : World := { w with log := w.log ++ [e] }

/-- The world with a new content for a file. -/
def World.write (w : World) (name content : List Byte) : World :=
  { w with files := file_set w.files name content }

/-- The effect of `ftruncate` on a content: cut, or extended with NUL bytes. -/
def resize (content : List Byte) (n : Nat) : List Byte :=
  content.take n ++ List.replicate (n - content.length) 0

/-- The call `memcpy(dst, src, n)`. -/
def memcpy (dst src : List Byte) (n : Nat) : List Byte :=
  src.take n ++ dst.drop (src.take n).length

/-- The bytes at `dst + off` replaced by `data`. -/
def write_at (dst : List Byte) (off : Nat) (data : List Byte) : List Byte :=
  dst.take off ++ data ++ dst.drop (off + data.length)

/-- One successful `read` of at most `nbyte` bytes from the socket: the bytes
delivered and the segments that stay pending.  A read delivers bytes of the
first pending segment only (a short read); no pending segment is the end of the
stream. -/
def transport_read (segs : List (List Byte)) (nbyte : Nat) : List Byte × List (List Byte) :=
  if nbyte = 0 then ([], segs)
  else match segs with
    | [] => ([], [])
    | s :: rest => (s.take nbyte, if nbyte < s.length then s.drop nbyte :: rest else rest)

/-! ## The file transfer engine, receive path -/

/-- The function `receive_save` of the source (lines 115-150).  Whether `mmap`
fails is the flag of the world alone, whatever the length: a mapping of 0
bytes, which a real system refuses, is a failure that the flag stands for. -/
def receive_save (w : World) (rem_buf : List Byte) (rem_buf_len : Nat)
    (filename : Option (List Byte)) (filesize : Nat) : Int × World :=
  let w1 := w.emit (Event.sys_open filename)
  match filename with
  | none => (-1, w1)
  | some name =>
    match file_get w1.files name with
    | none => (-1, w1)
    | some old =>
      let w2 := w1.emit (Event.sys_ftruncate filesize)
      if w2.ftruncate_fails then (-1, w2)
      else
        let w3 := (w2.write name (resize old filesize)).emit (Event.sys_mmap filesize)
        if w3.mmap_fails then (-1, w3)
        else
          let rem_buf_len1 := if rem_buf_len > filesize then filesize else rem_buf_len
          let fdata := memcpy (resize old filesize) rem_buf rem_buf_len1
          let w4 := (w3.write name fdata).emit (Event.sys_read (filesize - rem_buf_len1))
          if w4.read_fails then (-1, w4)
          else
            let got := transport_read w4.transport (filesize - rem_buf_len1)
            let w5 := { w4.write name (write_at fdata rem_buf_len1 got.1) with
                        transport := got.2 }
            if w5.munmap_fails then (-1, w5) else (0, w5)

/-! ## The line framer -/

/-- The function `readline` of the source (lines 152-166): the result and the
buffer after the call. -/
def readline (buf : List Byte) (len : Nat) : Int × List Byte :=
  match memchr buf 10 len with
  | none => (-1, buf)
  | some line_len =>
    let buf1 := if 0 < line_len ∧ buf.getD (line_len - 1) 0 = 13
                then buf.set (line_len - 1) 0 else buf
    ((line_len : Int) + 1, buf1.set line_len 0)

/-- A line without the carriage return that may end it. -/
def strip_cr (L : List Byte) : List Byte := if L.getLast? = some 13 then L.dropLast else L

/-- The next line of a buffer as the framer delimits it: the bytes before the
first line feed among the first `len` bytes, without a carriage return right
before it; `none` when there is no line feed. -/
def next_line (buf : List Byte) (len : Nat) : Option (List Byte) :=
  (memchr buf 10 len).map (fun i => strip_cr (buf.take i))

/-! ## The command and variable state machine -/

/-- The function `handle_var` of the source (lines 168-174). -/
def handle_var (name value : List Byte) (cmd_state : cmd) : cmd :=
  let s1 := if strcmp_eq name (bytes "token")
            then { cmd_state with filename := some (strdup value) } else cmd_state
  if strcmp_eq name (bytes "data") then { s1 with file_len := strtoul value } else s1

/-- What one call of `handle_line` leaves: the value returned, the buffer, the
parse state and the world. -/
structure LineResult where
  read_len : Int
  buf : List Byte
  st : cmd
  w : World
deriving DecidableEq, Repr

/-- The function `handle_line` of the source (lines 176-232). -/
def handle_line (w : World) (buf : List Byte) (len : Nat) (cmd_state : cmd) : LineResult :=
  match cmd_state.state with
  | CMD_STATE.CMD_HEADER =>
    let r := readline buf len
    if r.1 > 0 then ⟨r.1, r.2, { cmd_state with state := CMD_STATE.CMD_CMD }, w⟩
    else ⟨r.1, r.2, cmd_state, w⟩
  | CMD_STATE.CMD_CMD =>
    let r := readline buf len
    if r.1 > 0 ∧ r.2.headD 0 ≠ 0 then
      let s0 : cmd := ⟨CMD_STATE.CMD_HEADER, CMD_TYPE.UNKNOWN, none, 0⟩
      let s1 := if strncmp_eq r.2 (bytes "close") r.1.toNat
                then { s0 with cmd_type := CMD_TYPE.CLOSE } else s0
      let s2 := if strncmp_eq r.2 (bytes "save") r.1.toNat
                then { s1 with cmd_type := CMD_TYPE.SAVE } else s1
      ⟨r.1, r.2, { s2 with state := CMD_STATE.CMD_VAR }, w⟩
    else ⟨r.1, r.2, cmd_state, w⟩
  | CMD_STATE.CMD_VAR =>
    let r := readline buf len
    if r.1 < 0 then ⟨r.1, r.2, { cmd_state with state := CMD_STATE.CMD_CMD }, w⟩
    else if r.2.headD 0 = 0 then ⟨r.1, r.2, { cmd_state with state := CMD_STATE.CMD_CMD }, w⟩
    else
      let token_len := strcspn_colon r.2
      if token_len ≥ r.1.toNat then
        ⟨r.1, r.2, { cmd_state with state := CMD_STATE.CMD_CMD }, w⟩
      else
        let name := r.2.set token_len 0
        let value0 := name.drop (token_len + 1)
        let value := value0.drop (strspn_space value0)
        let st1 := handle_var name value { cmd_state with state := CMD_STATE.CMD_VAR }
        if strcmp_eq name (bytes "data") then
          let w1 := w.emit (Event.call_receive_save (name.drop r.1.toNat) (len - r.1.toNat)
                      st1.filename st1.file_len)
          let s := receive_save w1 (name.drop r.1.toNat) (len - r.1.toNat)
                      st1.filename st1.file_len
          ⟨r.1, name, st1, s.2⟩
        else ⟨r.1, name, st1, w⟩
  | CMD_STATE.CMD_END => ⟨-1, buf, cmd_state, w⟩

/-- What `handle_cmds` leaves: the value returned, the whole buffer, the parse
state and the world. -/
structure CmdsResult where
  ret : Int
  buf : List Byte
  st : cmd
  w : World
deriving DecidableEq, Repr

/-- The loop of `handle_cmds` (lines 237-244).  `seen` is the part of the array
before the cursor, `buf` the array from the cursor.  Every turn of the loop
that does not return advances `total_read_len` by at least one, so `len` turns
are enough; `none` would mean that the turns allowed did not suffice. -/
def handle_cmds_loop : Nat → World → List Byte → List Byte → Nat → Nat → cmd →
    Option CmdsResult
  | fuel, w, seen, buf, len, total_read_len, cmd_state =>
    if total_read_len < len then
      match fuel with
      | 0 => none
      | fuel + 1 =>
        let r := handle_line w buf len cmd_state
        if r.read_len = -1 then some ⟨-1, seen ++ r.buf, r.st, r.w⟩
        else handle_cmds_loop fuel r.w (seen ++ r.buf.take r.read_len.toNat)
               (r.buf.drop r.read_len.toNat) len (total_read_len + r.read_len.toNat) r.st
    else some ⟨total_read_len, seen ++ buf, cmd_state, w⟩

/-- The function `handle_cmds` of the source (lines 234-247). -/
def handle_cmds (w : World) (buf : List Byte) (len : Nat) (cmd_state : cmd) :
    Option CmdsResult :=
  handle_cmds_loop len w [] buf len 0 cmd_state

/-- The reads of a session handed to `handle_cmds` one after another, as the
loop of `main` does (lines 269-282): each read is the array and the number of
bytes read into it; the value `handle_cmds` returns is not looked at. -/
def feed : World → cmd → List (List Byte × Nat) → Option (cmd × World)
  | w, st, [] => some (st, w)
  | w, st, (buf, len) :: reads =>
    match handle_cmds w buf len st with
    | none => none
    | some r => feed r.w r.st reads


/-! ## The effect of one line of text -/

/-- The kind of command a command-name text stands for. -/
def kind_of (T : List Byte) : CMD_TYPE :=
  if cstr T = bytes "save" then CMD_TYPE.SAVE
  else if cstr T = bytes "close" then CMD_TYPE.CLOSE
  else CMD_TYPE.UNKNOWN

/-- The parse state that `handle_line` leaves after a complete line whose
bytes, without the terminator, are `T`, a variable line having a colon (or a
NUL) in it.  It is proved below to be what `handle_line` computes. -/
def text_step (st : cmd) (T : List Byte) : cmd :=
  match st.state with
  | CMD_STATE.CMD_HEADER => { st with state := CMD_STATE.CMD_CMD }
  | CMD_STATE.CMD_CMD =>
    if cstr T = [] then st else ⟨CMD_STATE.CMD_VAR, kind_of T, none, 0⟩
  | CMD_STATE.CMD_VAR =>
    if cstr T = [] then { st with state := CMD_STATE.CMD_CMD }
    else
      let value0 := T.drop (strcspn_colon T + 1)
      handle_var (T.take (strcspn_colon T)) (value0.drop (strspn_space value0))
        { st with state := CMD_STATE.CMD_VAR }
  | CMD_STATE.CMD_END => st

/-- The world that `handle_line` leaves after a complete line `L` (without its
line feed) that is followed in the array by `rest`: only a variable line named
`data` calls the receive path, with the bytes after the line, the length
`len` less the length of the line, and the token and the declared length just
stored.  It is proved below to be what `handle_line` computes. -/
def line_world (w : World) (L rest : List Byte) (len : Nat) (st : cmd) : World :=
  if st.state = CMD_STATE.CMD_VAR ∧ cstr (strip_cr L) ≠ [] ∧
      cstr ((strip_cr L).take (strcspn_colon (strip_cr L))) = bytes "data" then
    (receive_save
      (w.emit (Event.call_receive_save rest (len - (L.length + 1))
        (text_step st (strip_cr L)).filename (text_step st (strip_cr L)).file_len))
      rest (len - (L.length + 1))
      (text_step st (strip_cr L)).filename (text_step st (strip_cr L)).file_len).2
  else w

/-- The bytes of a sequence of lines on the wire, each followed by a line feed
(a carriage return before the line feed is the last byte of the line). -/
def wire : List (List Byte) → List Byte
  | [] => []
  | L :: Ls => L ++ 10 :: wire Ls

/-- The parse state after a sequence of complete lines. -/
def text_steps (st : cmd) (lines : List (List Byte)) : cmd :=
  lines.foldl (fun s L => text_step s (strip_cr L)) st

/-- Every line that is read as a variable line has a colon (or a NUL) in its
text, or is empty. -/
def lines_ok : cmd → List (List Byte) → Prop
  | _, [] => True
  | st, L :: Ls =>
    (st.state = CMD_STATE.CMD_VAR →
      strcspn_colon (strip_cr L) < (strip_cr L).length ∨ strip_cr L = []) ∧
    lines_ok (text_step st (strip_cr L)) Ls

/-- No line of the sequence is read as a variable line named `data`: no line
calls the receive path. -/
def lines_quiet : cmd → List (List Byte) → Prop
  | _, [] => True
  | st, L :: Ls =>
    ¬ (st.state = CMD_STATE.CMD_VAR ∧ cstr (strip_cr L) ≠ [] ∧
        cstr ((strip_cr L).take (strcspn_colon (strip_cr L))) = bytes "data") ∧
    lines_quiet (text_step st (strip_cr L)) Ls

/-- The name of a variable line: the bytes before its first colon. -/
def var_name (v : List Byte) : List Byte := v.takeWhile (fun b => b ≠ 58)

/-! ## Well-formed peer input -/

/-- One command of the peer, as lines without their line feed: the line that
names the command, the variable lines and the line that ends the command. -/
structure Command where
  name : List Byte
  vars : List (List Byte)
  blank : List Byte
deriving DecidableEq, Repr

/-- The lines of a command. -/
def Command.lines (c : Command) : List (List Byte) := c.name :: (c.vars ++ [c.blank])

/-- The lines of a peer input: the greeting, then the commands. -/
def input_lines (greeting : List Byte) (cmds : List Command) : List (List Byte) :=
  greeting :: (cmds.map Command.lines).flatten

/-- A peer input is well formed: no line holds a line feed, every variable
line has a colon, and the line that ends a command is blank (empty, or a lone
carriage return before the line feed). -/
def well_formed (greeting : List Byte) (cmds : List Command) : Prop :=
  10 ∉ greeting ∧
  ∀ c ∈ cmds, 10 ∉ c.name ∧ (∀ v ∈ c.vars, 10 ∉ v ∧ 58 ∈ v) ∧ (c.blank = [] ∨ c.blank = [13])

/-- The reads of a session in which every read holds whole lines: for each
read the lines it holds and the bytes that lie in the array after them (the
NUL that `main` stores, then what earlier reads left there). -/
def line_reads (parts : List (List (List Byte) × List Byte)) : List (List Byte × Nat) :=
  parts.map (fun p => (wire p.1 ++ p.2, (wire p.1).length))

/-- The reads of a session that hold a piece of a line and no line feed: for
each read the bytes read and the bytes that lie in the array after them. -/
def piece_reads (pieces : List (List Byte × List Byte)) : List (List Byte × Nat) :=
  pieces.map (fun p => (p.1 ++ p.2, p.1.length))

/-! ## Decimal numerals -/

/-- The value of a string of decimal digits read from its last digit. -/
def digits_le_value : List Byte → Nat
  | [] => 0
  | d :: ds => (d - 48) + 10 * digits_le_value ds

/-- Modelled from the spec's words: the base-10 number that a string of decimal
digits denotes, the last digit counting units, the one before it tens, and so
on.  It is the reference against which `strtoul` is compared. -/
def numeral_value (ds : List Byte) : Nat := digits_le_value ds.reverse

/-- The digits of `decimal`: `fuel` bounds the number of digits. -/
def decimal_aux : Nat → Nat → List Byte → List Byte
  | 0, _, acc => acc
  | fuel + 1, n, acc =>
    if n < 10 then (48 + n) :: acc else decimal_aux fuel (n / 10) ((48 + n % 10) :: acc)

/-- The characters that the conversion `%zd` of `dprintf` prints for a value
that is not negative: its decimal digits, without leading zero. -/
def decimal (n : Nat) : List Byte := decimal_aux (n + 1) n []

/-! ## The file transfer engine, send path -/

/-- What `send_open` finds outside the program: whether `fstat` and `mmap` fail,
the bytes of the file behind `fd`, and the string that `realpath` returns
(`none` for NULL). -/
structure SendEnv where
  fstat_fails : Bool
  mmap_fails : Bool
  content : List Byte
  resolved : Option (List Byte)
deriving DecidableEq, Repr

/-- The characters that the conversion `%s` of `dprintf` prints: the C string at
the pointer, and `(null)` for a NULL pointer. -/
def printf_s (s : Option (List Byte)) : List Byte :=
  match s with
  | none => bytes "(null)"
  | some p => cstr p

/-- The function `send_open` of the source (lines 86-113): the value returned
and the bytes written to the socket, every write taken to deliver all its
bytes.  The size that `fstat` reports is the number of bytes of the file. -/
def send_open (e : SendEnv) (filename : List Byte) : Int × List Byte :=
  if e.fstat_fails then (-1, [])
  else
    let st_size := e.content.length
    if e.mmap_fails then (-1, [])
    else
      let fdata := e.content
      let out1 := bytes "open\n"
      let out2 := out1 ++ (bytes "display-name: " ++ printf_s (some filename) ++ bytes "\n")
      let out3 := out2 ++ (bytes "real-path: " ++ printf_s e.resolved ++ bytes "\n")
      let out4 := out3 ++ bytes "data-on-save: yes\n"
      let out5 := out4 ++ bytes "re-activate: yes\n"
      let out6 := out5 ++ (bytes "token: " ++ printf_s (some filename) ++ bytes "\n")
      let out7 := out6 ++ (bytes "data: " ++ decimal st_size ++ bytes "\n")
      let out8 := out7 ++ fdata.take st_size
      let out9 := out8 ++ bytes "\n.\n"
      (0, out9)

/-! ## Reachable parse states -/

/-- The parse states that a session can reach: the initial state of `main`, and
the state that `handle_line` leaves from a reachable state, whatever the world,
the buffer and the length it is given. -/
inductive Reachable : cmd → Prop where
  | init : Reachable cmd_zero
  | step (w : World) (buf : List Byte) (len : Nat) (st : cmd) :
      Reachable st → Reachable (handle_line w buf len st).st

/-! ## Scenarios -/

/-- The world of the scenarios: the file `foo` exists, three bytes are pending on
the socket and no system call fails. -/
def scenario_world : World :=
  ⟨[(bytes "foo", bytes "old content")], [[1, 2, 3]], false, false, false, false, []⟩

/-- The parse state once the greeting line is consumed: what `handle_line`
leaves from `cmd_zero` after one complete line. -/
def after_greeting : cmd := ⟨CMD_STATE.CMD_CMD, CMD_TYPE.UNKNOWN, none, 0⟩

/-- The parse state in the middle of a `save` command for the file `foo`. -/
def saving_foo : cmd := ⟨CMD_STATE.CMD_VAR, CMD_TYPE.SAVE, some (bytes "foo"), 7⟩

/-- The parse state after a `save` command for the file `foo` has ended. -/
def saving_foo_done : cmd := ⟨CMD_STATE.CMD_CMD, CMD_TYPE.SAVE, some (bytes "foo"), 7⟩

/-- The text of the next line of a buffer: the next line up to its first NUL
byte, which is the whole line when the line holds no NUL.  This is the string
that `handle_line` sees at `buf` after `readline`. -/
def line_text (buf : List Byte) (len : Nat) : Option (List Byte) :=
  (next_line buf len).map cstr

/-! ## Facts about `memchr` -/

theorem memchr_eq_some (buf : List Byte) (c : Byte) (len i : Nat) :
    memchr buf c len = some i ↔
      (i < len ∧ buf[i]? = some c ∧ ∀ j, j < i → buf[j]? ≠ some c) := by
  induction buf generalizing len i with
  | nil => simp [memchr]
  | cons b bs ih =>
    cases len with
    | zero => simp [memchr]
    | succ n =>
      unfold memchr
      by_cases hb : b = c
      · subst hb
        simp only [if_true, Option.some.injEq]
        constructor
        · intro h; subst h; simp
        · rintro ⟨_, _, h3⟩
          cases i with
          | zero => rfl
          | succ k => exact absurd (by simp) (h3 0 (Nat.succ_pos k))
      · simp only [hb, if_false, Option.map_eq_some']
        constructor
        · rintro ⟨k, hk, rfl⟩
          obtain ⟨h1, h2, h3⟩ := (ih n k).1 hk
          refine ⟨Nat.succ_lt_succ h1, by simpa using h2, ?_⟩
          intro j hj
          cases j with
          | zero => simpa using hb
          | succ m => simpa using h3 m (Nat.lt_of_succ_lt_succ hj)
        · rintro ⟨h1, h2, h3⟩
          cases i with
          | zero => simp at h2; exact absurd h2 hb
          | succ k =>
            refine ⟨k, (ih n k).2 ⟨Nat.lt_of_succ_lt_succ h1, by simpa using h2, ?_⟩, rfl⟩
            intro j hj
            simpa using h3 (j + 1) (Nat.succ_lt_succ hj)

theorem memchr_eq_none (buf : List Byte) (c : Byte) (len : Nat) :
    memchr buf c len = none ↔ ∀ j, j < len → buf[j]? ≠ some c := by
  induction buf generalizing len with
  | nil => simp [memchr]
  | cons b bs ih =>
    cases len with
    | zero => simp [memchr]
    | succ n =>
      unfold memchr
      by_cases hb : b = c
      · subst hb
        simp only [if_true]
        constructor
        · intro h; cases h
        · intro h; exact absurd (by simp) (h 0 (Nat.succ_pos n))
      · simp only [hb, if_false, Option.map_eq_none']
        rw [ih n]
        constructor
        · intro h j hj
          cases j with
          | zero => simpa using hb
          | succ m => simpa using h m (Nat.lt_of_succ_lt_succ hj)
        · intro h j hj
          simpa using h (j + 1) (Nat.succ_lt_succ hj)


theorem memchr_lt_length {buf : List Byte} {c : Byte} {len i : Nat}
    (h : memchr buf c len = some i) : i < buf.length := by
  have h2 := ((memchr_eq_some buf c len i).1 h).2.1
  by_contra hc
  rw [List.getElem?_eq_none (Nat.le_of_not_lt hc)] at h2
  cases h2


/-! ## Facts about the receive path -/

theorem file_get_set_same (fs : List (List Byte × List Byte)) (name c old : List Byte)
    (h : file_get fs name = some old) : file_get (file_set fs name c) name = some c := by
  induction fs with
  | nil => simp [file_get] at h
  | cons e fs ih =>
    obtain ⟨n, c0⟩ := e
    by_cases hn : n = name
    · simp [file_get, file_set, hn]
    · simp only [file_get, hn, if_false] at h
      simp [file_get, file_set, hn, ih h]

theorem transport_read_length_le (segs : List (List Byte)) (n : Nat) :
    (transport_read segs n).1.length ≤ n := by
  unfold transport_read
  split
  · simp
  · cases segs with
    | nil => simp
    | cons s rest => simp

theorem resize_length (c : List Byte) (n : Nat) : (resize c n).length = n := by
  simp [resize]; omega


theorem receive_save_log (w : World) (rem_buf : List Byte) (k : Nat)
    (filename : Option (List Byte)) (N : Nat) :
    ∃ evs, (receive_save w rem_buf k filename N).2.log = w.log ++ evs ∧
      ∀ n, Event.sys_read n ∈ evs → n = N - min k N := by
  have hmin : (if k > N then N else k) = min k N := by
    split <;> omega
  unfold receive_save
  cases filename with
  | none => exact ⟨[Event.sys_open none], by simp [World.emit], by simp⟩
  | some name =>
    simp only [World.emit, World.write, hmin]
    cases file_get w.files name with
    | none => exact ⟨[Event.sys_open (some name)], by simp, by simp⟩
    | some old =>
      simp only []
      cases w.ftruncate_fails with
      | true => exact ⟨[Event.sys_open (some name), Event.sys_ftruncate N], by simp, by simp⟩
      | false =>
        cases w.mmap_fails with
        | true =>
          exact ⟨[Event.sys_open (some name), Event.sys_ftruncate N, Event.sys_mmap N],
            by simp, by simp⟩
        | false =>
          refine ⟨[Event.sys_open (some name), Event.sys_ftruncate N, Event.sys_mmap N,
            Event.sys_read (N - min k N)], ?_, by simp⟩
          cases w.read_fails <;> cases w.munmap_fails <;> simp

theorem receive_save_transport (w : World) (rem_buf : List Byte) (k : Nat)
    (filename : Option (List Byte)) (N : Nat) (h : N ≤ k) :
    (receive_save w rem_buf k filename N).2.transport = w.transport := by
  have hmin : (if k > N then N else k) = N := by
    split <;> omega
  unfold receive_save
  cases filename with
  | none => simp [World.emit]
  | some name =>
    simp only [World.emit, World.write, hmin]
    cases file_get w.files name with
    | none => simp
    | some old =>
      simp only []
      cases w.ftruncate_fails <;> cases w.mmap_fails <;> cases w.read_fails <;>
        cases w.munmap_fails <;> simp [transport_read]


/-! ## What `handle_line` and `handle_cmds` do for every buffer -/

theorem handle_line_world_aux (w : World) (buf : List Byte) (len : Nat) (st : cmd)
    (r : LineResult) (hr : handle_line w buf len st = r) :
    r.w = w ∨
    ∃ rem fn, r.w =
      (receive_save (w.emit (Event.call_receive_save rem (len - r.read_len.toNat) fn
          r.st.file_len)) rem (len - r.read_len.toNat) fn r.st.file_len).2 := by
  cases hs : st.state <;> simp only [handle_line, hs] at hr
  · split_ifs at hr <;> subst hr <;> exact Or.inl rfl
  · split_ifs at hr <;> subst hr <;> exact Or.inl rfl
  · split_ifs at hr <;> subst hr
    · exact Or.inl rfl
    · exact Or.inl rfl
    · exact Or.inl rfl
    · exact Or.inr ⟨_, _, rfl⟩
    · exact Or.inl rfl
  · subst hr; exact Or.inl rfl

theorem handle_line_world (w : World) (buf : List Byte) (len : Nat) (st : cmd) :
    (handle_line w buf len st).w = w ∨
    ∃ rem fn, (handle_line w buf len st).w =
      (receive_save (w.emit (Event.call_receive_save rem
          (len - (handle_line w buf len st).read_len.toNat) fn
          (handle_line w buf len st).st.file_len)) rem
        (len - (handle_line w buf len st).read_len.toNat) fn
        (handle_line w buf len st).st.file_len).2 :=
  handle_line_world_aux w buf len st _ rfl

theorem handle_line_transport (w : World) (buf : List Byte) (len : Nat) (st : cmd)
    (h : (handle_line w buf len st).st.file_len ≤
          len - (handle_line w buf len st).read_len.toNat) :
    (handle_line w buf len st).w.transport = w.transport ∧
    ∃ evs, (handle_line w buf len st).w.log = w.log ++ evs ∧
      ∀ n, Event.sys_read n ∈ evs → n = 0 := by
  rcases handle_line_world w buf len st with h0 | ⟨rem, fn, h1⟩
  · rw [h0]
    exact ⟨rfl, [], by simp, by simp⟩
  · rw [h1]
    refine ⟨?_, ?_⟩
    · rw [receive_save_transport _ _ _ _ _ h]; rfl
    · obtain ⟨evs, h2, h3⟩ := receive_save_log (w.emit (Event.call_receive_save rem
          (len - (handle_line w buf len st).read_len.toNat) fn
          (handle_line w buf len st).st.file_len)) rem
        (len - (handle_line w buf len st).read_len.toNat) fn
        (handle_line w buf len st).st.file_len
      refine ⟨Event.call_receive_save rem
          (len - (handle_line w buf len st).read_len.toNat) fn
          (handle_line w buf len st).st.file_len :: evs, ?_, ?_⟩
      · rw [h2]; simp [World.emit]
      · intro n hn
        simp only [List.mem_cons] at hn
        rcases hn with hn | hn
        · cases hn
        · have := h3 n hn
          omega

theorem readline_ret (buf : List Byte) (len : Nat) :
    (readline buf len).1 = -1 ∨ 1 ≤ (readline buf len).1 := by
  unfold readline
  cases memchr buf 10 len with
  | none => exact Or.inl rfl
  | some i => right; simp only []; omega

theorem handle_line_ret_aux (w : World) (buf : List Byte) (len : Nat) (st : cmd)
    (r : LineResult) (hr : handle_line w buf len st = r) :
    r.read_len = -1 ∨ 1 ≤ r.read_len := by
  have h := readline_ret buf len
  cases hs : st.state <;> simp only [handle_line, hs] at hr
  · split_ifs at hr <;> subst hr <;> exact h
  · split_ifs at hr <;> subst hr <;> exact h
  · split_ifs at hr <;> subst hr <;> exact h
  · subst hr; exact Or.inl rfl

theorem handle_line_ret (w : World) (buf : List Byte) (len : Nat) (st : cmd) :
    (handle_line w buf len st).read_len = -1 ∨ 1 ≤ (handle_line w buf len st).read_len :=
  handle_line_ret_aux w buf len st _ rfl

theorem handle_cmds_loop_total (fuel : Nat) :
    ∀ (w : World) (seen buf : List Byte) (len total : Nat) (st : cmd),
      len ≤ total + fuel → ∃ r, handle_cmds_loop fuel w seen buf len total st = some r := by
  induction fuel with
  | zero =>
    intro w seen buf len total st h
    unfold handle_cmds_loop
    rw [if_neg (by omega)]
    exact ⟨_, rfl⟩
  | succ f ih =>
    intro w seen buf len total st h
    unfold handle_cmds_loop
    by_cases hlt : total < len
    · rw [if_pos hlt]
      simp only []
      by_cases hm : (handle_line w buf len st).read_len = -1
      · rw [if_pos hm]; exact ⟨_, rfl⟩
      · rw [if_neg hm]
        apply ih
        rcases handle_line_ret w buf len st with h1 | h1
        · exact absurd h1 hm
        · omega
    · rw [if_neg hlt]
      exact ⟨_, rfl⟩

theorem handle_cmds_total (w : World) (buf : List Byte) (len : Nat) (st : cmd) :
    ∃ r, handle_cmds w buf len st = some r :=
  handle_cmds_loop_total len w [] buf len 0 st (by omega)

/-! ## Facts about the string functions -/

theorem cstr_append_zero (T t : List Byte) : cstr (T ++ 0 :: t) = cstr T := by
  induction T with
  | nil => simp [cstr]
  | cons x xs ih =>
    unfold cstr at ih ⊢
    by_cases hx : x = 0
    · simp [List.takeWhile_cons, hx]
    · simpa [List.takeWhile_cons, hx] using ih

theorem strcspn_append_zero (T t : List Byte) :
    strcspn_colon (T ++ 0 :: t) = strcspn_colon T := by
  induction T with
  | nil => simp [strcspn_colon]
  | cons x xs ih =>
    unfold strcspn_colon at ih ⊢
    by_cases hx : x ≠ 0 ∧ x ≠ 58
    · simpa [List.takeWhile_cons, hx] using ih
    · simp [List.takeWhile_cons, hx]

theorem strspn_append_zero (T t : List Byte) :
    strspn_space (T ++ 0 :: t) = strspn_space T := by
  induction T with
  | nil => simp [strspn_space]
  | cons x xs ih =>
    unfold strspn_space at ih ⊢
    by_cases hx : x = 32
    · simpa [List.takeWhile_cons, hx] using ih
    · simp [List.takeWhile_cons, hx]

theorem strcspn_le_length (T : List Byte) : strcspn_colon T ≤ T.length := by
  unfold strcspn_colon
  exact List.Sublist.length_le (List.takeWhile_sublist _)

theorem strcmp_eq_iff (a lit : List Byte) (hl : ∀ b ∈ lit, b ≠ 0) :
    strcmp_eq a lit = true ↔ cstr a = lit := by
  induction a generalizing lit with
  | nil =>
    cases lit with
    | nil => simp [strcmp_eq, cstr]
    | cons y ys =>
      have := hl y (by simp)
      simp [strcmp_eq, cstr, this]
  | cons x xs ih =>
    cases lit with
    | nil =>
      by_cases hx : x = 0
      · simp [strcmp_eq, cstr, hx]
      · simp [strcmp_eq, cstr, hx, List.takeWhile_cons]
    | cons y ys =>
      have hy := hl y (by simp)
      by_cases hxy : x = y
      · subst hxy
        have := ih ys (fun b hb => hl b (by simp [hb]))
        simp only [cstr] at this
        simp [strcmp_eq, cstr, hy, List.takeWhile_cons, this]
      · by_cases hx : x = 0
        · subst hx
          simp [strcmp_eq, cstr, hxy, List.takeWhile_cons]
        · simp [strcmp_eq, cstr, hxy, hx, List.takeWhile_cons]

theorem strncmp_eq_iff (a lit : List Byte) (n : Nat) (hl : ∀ b ∈ lit, b ≠ 0)
    (hn : (cstr a).length < n) : strncmp_eq a lit n = true ↔ cstr a = lit := by
  induction n generalizing a lit with
  | zero => omega
  | succ n ih =>
    cases a with
    | nil =>
      cases lit with
      | nil => simp [strncmp_eq, cstr]
      | cons y ys =>
        have := hl y (by simp)
        simp [strncmp_eq, cstr, this]
        intro h; exact absurd h.symm this
    | cons x xs =>
      cases lit with
      | nil =>
        by_cases hx : x = 0
        · simp [strncmp_eq, cstr, hx]
        · simp [strncmp_eq, cstr, hx, List.takeWhile_cons]
      | cons y ys =>
        have hy := hl y (by simp)
        by_cases hxy : x = y
        · subst hxy
          have hlen : (cstr xs).length < n := by
            simp [cstr, List.takeWhile_cons, hy] at hn
            simpa [cstr] using hn
          have := ih xs ys (fun b hb => hl b (by simp [hb])) hlen
          simp only [cstr] at this
          simp [strncmp_eq, cstr, hy, List.takeWhile_cons, this]
        · by_cases hx : x = 0
          · subst hx
            simp [strncmp_eq, cstr, hxy, List.takeWhile_cons]
          · simp [strncmp_eq, cstr, hxy, hx, List.takeWhile_cons]

theorem takeWhile_append_stop (p : Byte → Bool) (X t : List Byte) (z : Byte)
    (hz : p z = false) : (X ++ z :: t).takeWhile p = X.takeWhile p := by
  induction X with
  | nil => simp [List.takeWhile_cons, hz]
  | cons x xs ih =>
    cases hx : p x <;> simp [List.takeWhile_cons, hx, ih]

theorem dropWhile_append_stop (p : Byte → Bool) (X t : List Byte) (z : Byte)
    (hz : p z = false) : (X ++ z :: t).dropWhile p = X.dropWhile p ++ z :: t := by
  induction X with
  | nil => simp [List.dropWhile_cons, hz]
  | cons x xs ih =>
    cases hx : p x <;> simp [List.dropWhile_cons, hx, ih]

theorem strtoul_append_zero (V t : List Byte) : strtoul (V ++ 0 :: t) = strtoul V := by
  have key : ∀ X : List Byte, (X ++ 0 :: t).takeWhile isdigit = X.takeWhile isdigit :=
    fun X => takeWhile_append_stop isdigit X t 0 (by decide)
  unfold strtoul
  rw [dropWhile_append_stop isspace V t 0 (by decide)]
  cases hD : V.dropWhile isspace with
  | nil =>
    simp [List.takeWhile_cons, isdigit]
  | cons c D =>
    simp only [List.cons_append, List.head?_cons, List.tail_cons]
    by_cases hc : some c = some 45 ∨ some c = some 43
    · simp only [if_pos hc, key]
    · have e : c :: (D ++ 0 :: t) = (c :: D) ++ 0 :: t := rfl
      simp only [if_neg hc, e, key]

/-! ## `handle_line` on a buffer that starts with a complete line -/

theorem memchr_append (L rest : List Byte) (len : Nat) (h10 : 10 ∉ L)
    (hlen : L.length < len) : memchr (L ++ 10 :: rest) 10 len = some L.length := by
  rw [memchr_eq_some]
  refine ⟨hlen, by rw [List.getElem?_append_right (Nat.le_refl _)]; simp, ?_⟩
  intro j hj
  rw [List.getElem?_append_left hj, List.getElem?_eq_getElem hj]
  intro h
  apply h10
  have := List.getElem_mem hj
  simp only [Option.some.injEq] at h
  rw [h] at this
  exact this

theorem readline_append (L rest : List Byte) (len : Nat) (h10 : 10 ∉ L)
    (hlen : L.length < len) :
    readline (L ++ 10 :: rest) len =
      ((L.length : Int) + 1,
        strip_cr L ++ 0 :: (List.replicate (L.length - (strip_cr L).length) 0 ++ rest)) := by
  unfold readline
  rw [memchr_append L rest len h10 hlen]
  simp only []
  rcases List.eq_nil_or_concat L with h | ⟨L0, x, h⟩
  · subst h
    simp [strip_cr]
  · subst h
    by_cases hx : x = 13
    · subst hx
      simp [strip_cr, List.getLast?_concat]
      have hb : L0.length < (L0 ++ 13 :: 10 :: rest).length := by simp
      have e : (L0 ++ 13 :: 10 :: rest)[L0.length] = 13 := by
        rw [List.getElem_append_right (Nat.le_refl _)]; simp
      rw [if_pos e, List.set_append_right _ _ (by omega)]
      simp
    · simp [strip_cr, List.getLast?_concat, hx]
      have hb : L0.length < (L0 ++ x :: 10 :: rest).length := by simp
      have e : (L0 ++ x :: 10 :: rest)[L0.length] = x := by
        rw [List.getElem_append_right (Nat.le_refl _)]; simp
      rw [e, if_neg hx, List.set_append_right _ _ (by omega)]
      simp

theorem headD_append_zero (T t : List Byte) :
    (T ++ 0 :: t).headD 0 = 0 ↔ cstr T = [] := by
  cases T with
  | nil => simp [cstr]
  | cons x xs =>
    by_cases hx : x = 0
    · simp [cstr, hx]
    · simp [cstr, hx, List.takeWhile_cons]

theorem cstr_length_le (T : List Byte) : (cstr T).length ≤ T.length := by
  unfold cstr
  exact List.Sublist.length_le (List.takeWhile_sublist _)

theorem strip_cr_length_le (L : List Byte) : (strip_cr L).length ≤ L.length := by
  unfold strip_cr
  split
  · simp
  · exact Nat.le_refl _

theorem handle_var_congr (name name1 value value1 : List Byte) (st : cmd)
    (hn : cstr name = cstr name1) (hv : cstr value = cstr value1)
    (hu : strtoul value = strtoul value1) :
    handle_var name value st = handle_var name1 value1 st := by
  have ht : ∀ b ∈ bytes "token", b ≠ 0 := by decide
  have hd : ∀ b ∈ bytes "data", b ≠ 0 := by decide
  have e1 : strcmp_eq name (bytes "token") = strcmp_eq name1 (bytes "token") := by
    rw [Bool.eq_iff_iff, strcmp_eq_iff _ _ ht, strcmp_eq_iff _ _ ht, hn]
  have e2 : strcmp_eq name (bytes "data") = strcmp_eq name1 (bytes "data") := by
    rw [Bool.eq_iff_iff, strcmp_eq_iff _ _ hd, strcmp_eq_iff _ _ hd, hn]
  unfold handle_var strdup
  rw [e1, e2, hv, hu]


theorem drop_pad (L rest : List Byte) :
    (strip_cr L ++ 0 :: (List.replicate (L.length - (strip_cr L).length) 0 ++ rest)).drop
      (L.length + 1) = rest := by
  have h := strip_cr_length_le L
  have e : L.length + 1 =
      (strip_cr L ++ 0 :: List.replicate (L.length - (strip_cr L).length) 0).length := by
    simp; omega
  rw [e]
  have e2 : strip_cr L ++ 0 :: (List.replicate (L.length - (strip_cr L).length) 0 ++ rest) =
      (strip_cr L ++ 0 :: List.replicate (L.length - (strip_cr L).length) 0) ++ rest := by
    simp
  rw [e2, List.drop_left]

theorem handle_line_append (w : World) (L rest : List Byte) (len : Nat) (st : cmd)
    (h10 : 10 ∉ L) (hlen : L.length < len) (hend : st.state ≠ CMD_STATE.CMD_END)
    (hok : st.state = CMD_STATE.CMD_VAR →
      strcspn_colon (strip_cr L) < (strip_cr L).length ∨ strip_cr L = []) :
    (handle_line w (L ++ 10 :: rest) len st).read_len = (L.length : Int) + 1 ∧
    (handle_line w (L ++ 10 :: rest) len st).st = text_step st (strip_cr L) ∧
    (handle_line w (L ++ 10 :: rest) len st).buf.drop (L.length + 1) = rest := by
  have hr := readline_append L rest len h10 hlen
  have hpos : (L.length : Int) + 1 > 0 := by omega
  have hT := strip_cr_length_le L
  generalize hTd : strip_cr L = T at *
  generalize htd : List.replicate (L.length - T.length) 0 ++ rest = t at *
  cases hs : st.state
  · simp only [handle_line, hs, hr, text_step, if_pos hpos]
    exact ⟨trivial, trivial, by rw [← htd, ← hTd]; exact drop_pad L rest⟩
  · simp only [handle_line, hs, hr, text_step]
    by_cases he : cstr T = []
    · have h0 := (headD_append_zero T t).2 he
      simp only [h0, he, ne_eq, not_true_eq_false, and_false, if_false, if_true]
      exact ⟨trivial, trivial, by rw [← htd, ← hTd]; exact drop_pad L rest⟩
    · have h0 : ¬ (T ++ 0 :: t).headD 0 = 0 := fun h => he ((headD_append_zero T t).1 h)
      have hn : ((L.length : Int) + 1).toNat = L.length + 1 := by omega
      have hlt : (cstr (T ++ 0 :: t)).length < L.length + 1 := by
        rw [cstr_append_zero]
        have := cstr_length_le T
        omega
      have hc := strncmp_eq_iff (T ++ 0 :: t) (bytes "close") (L.length + 1) (by decide) hlt
      have hsv := strncmp_eq_iff (T ++ 0 :: t) (bytes "save") (L.length + 1) (by decide) hlt
      rw [cstr_append_zero] at hc hsv
      simp only [h0, he, hn, hpos, ne_eq, not_false_eq_true, and_self, if_true, if_false,
        kind_of, hc, hsv]
      refine ⟨trivial, ?_, by rw [← htd, ← hTd]; exact drop_pad L rest⟩
      have ne1 : ¬ bytes "save" = bytes "close" := by decide
      have ne2 : ¬ bytes "close" = bytes "save" := by decide
      by_cases h1 : cstr T = bytes "save"
      · simp [h1, ne1]
      · by_cases h2 : cstr T = bytes "close"
        · simp [h2, ne2]
        · simp [h1, h2]
  · simp only [handle_line, hs, hr, text_step]
    have hneg : ¬ ((L.length : Int) + 1 < 0) := by omega
    have hn : ((L.length : Int) + 1).toNat = L.length + 1 := by omega
    simp only [if_neg hneg, hn, strcspn_append_zero]
    by_cases he : cstr T = []
    · have h0 := (headD_append_zero T t).2 he
      simp only [if_pos h0, if_pos he]
      exact ⟨trivial, trivial, by rw [← htd, ← hTd]; exact drop_pad L rest⟩
    · have h0 : ¬ (T ++ 0 :: t).headD 0 = 0 := fun h => he ((headD_append_zero T t).1 h)
      have htl : strcspn_colon T < T.length :=
        (hok hs).resolve_right (fun h => he (by rw [h]; rfl))
      have hge : ¬ (strcspn_colon T ≥ L.length + 1) := by omega
      simp only [if_neg h0, if_neg he, if_neg hge]
      have hbuf : ((T ++ 0 :: t).set (strcspn_colon T) 0).drop (L.length + 1) = rest := by
        rw [List.drop_set_of_lt _ _ (by omega), ← htd, ← hTd]
        exact drop_pad L rest
      have hname : (T ++ 0 :: t).set (strcspn_colon T) 0 =
          T.take (strcspn_colon T) ++ 0 :: (T.drop (strcspn_colon T + 1) ++ 0 :: t) := by
        rw [List.set_append_left _ _ htl, List.set_eq_take_append_cons_drop, if_pos htl]
        simp
      have hdrop : ((T ++ 0 :: t).set (strcspn_colon T) 0).drop (strcspn_colon T + 1) =
          T.drop (strcspn_colon T + 1) ++ 0 :: t := by
        rw [List.drop_set_of_lt _ _ (by omega), List.drop_append_of_le_length (by omega)]
      have hvalue : (T.drop (strcspn_colon T + 1) ++ 0 :: t).drop
            (strspn_space (T.drop (strcspn_colon T + 1))) =
          (T.drop (strcspn_colon T + 1)).drop (strspn_space (T.drop (strcspn_colon T + 1)))
            ++ 0 :: t := by
        rw [List.drop_append_of_le_length]
        unfold strspn_space
        exact List.Sublist.length_le (List.takeWhile_sublist _)
      have hst : handle_var ((T ++ 0 :: t).set (strcspn_colon T) 0)
            ((T.drop (strcspn_colon T + 1) ++ 0 :: t).drop
              (strspn_space (T.drop (strcspn_colon T + 1))))
            { st with state := CMD_STATE.CMD_VAR } =
          handle_var (T.take (strcspn_colon T))
            ((T.drop (strcspn_colon T + 1)).drop (strspn_space (T.drop (strcspn_colon T + 1))))
            { st with state := CMD_STATE.CMD_VAR } := by
        apply handle_var_congr
        · rw [hname, cstr_append_zero]
        · rw [hvalue, cstr_append_zero]
        · rw [hvalue, strtoul_append_zero]
      rw [hdrop, strspn_append_zero]
      by_cases hc : strcmp_eq ((T ++ 0 :: t).set (strcspn_colon T) 0) (bytes "data") = true
      · simp only [if_pos hc]
        exact ⟨trivial, hst, hbuf⟩
      · simp only [if_neg hc]
        exact ⟨trivial, hst, hbuf⟩
  · exact absurd hs hend

/-! ## `handle_cmds` and `feed` on reads made of complete lines -/

theorem handle_var_state (name value : List Byte) (st : cmd) :
    (handle_var name value st).state = st.state := by
  unfold handle_var
  split_ifs <;> rfl

theorem text_step_ne_end (st : cmd) (T : List Byte) (h : st.state ≠ CMD_STATE.CMD_END) :
    (text_step st T).state ≠ CMD_STATE.CMD_END := by
  cases hs : st.state
  · simp [text_step, hs]
  · simp only [text_step, hs]
    split_ifs
    · rw [hs]; simp
    · simp
  · simp only [text_step, hs]
    split_ifs
    · simp
    · rw [handle_var_state]; simp
  · exact absurd hs h

theorem wire_append (a b : List (List Byte)) : wire (a ++ b) = wire a ++ wire b := by
  induction a with
  | nil => rfl
  | cons L Ls ih => simp [wire, ih]

theorem length_le_wire (lines : List (List Byte)) : lines.length ≤ (wire lines).length := by
  induction lines with
  | nil => simp
  | cons L Ls ih => simp [wire]; omega

theorem handle_cmds_loop_lines (lines : List (List Byte)) :
    ∀ (fuel : Nat) (w : World) (seen tail : List Byte) (len total : Nat) (st : cmd),
      (∀ L ∈ lines, 10 ∉ L) → total + (wire lines).length = len → lines.length ≤ fuel →
      st.state ≠ CMD_STATE.CMD_END → lines_ok st lines →
      ∃ r, handle_cmds_loop fuel w seen (wire lines ++ tail) len total st = some r ∧
        r.st = text_steps st lines ∧ r.ret = (len : Int) := by
  induction lines with
  | nil =>
    intro fuel w seen tail len total st _ hlen _ _ _
    have : ¬ total < len := by simp [wire] at hlen; omega
    unfold handle_cmds_loop
    rw [if_neg this]
    refine ⟨_, rfl, rfl, ?_⟩
    simp [wire] at hlen
    simp [hlen]
  | cons L Ls ih =>
    intro fuel w seen tail len total st h10 hlen hfuel hend hok
    have hL : 10 ∉ L := h10 L (by simp)
    have hlt : total < len := by simp [wire] at hlen; omega
    have hLlen : L.length < len := by simp [wire] at hlen; omega
    obtain ⟨hok1, hok2⟩ := hok
    cases fuel with
    | zero => simp at hfuel
    | succ f =>
      obtain ⟨h1, h2, h3⟩ :=
        handle_line_append w L (wire Ls ++ tail) len st hL hLlen hend hok1
      unfold handle_cmds_loop
      have e : wire (L :: Ls) ++ tail = L ++ 10 :: (wire Ls ++ tail) := by simp [wire]
      rw [if_pos hlt, e]
      have hne : ¬ (handle_line w (L ++ 10 :: (wire Ls ++ tail)) len st).read_len = -1 := by
        rw [h1]; omega
      have hn : ((L.length : Int) + 1).toNat = L.length + 1 := by omega
      simp only [if_neg hne, h1, hn, h3, h2]
      exact ih f _ _ tail len _ _ (fun L hLm => h10 L (by simp [hLm]))
        (by simp [wire] at hlen; omega) (by simp at hfuel; omega)
        (text_step_ne_end _ _ hend) hok2

theorem text_steps_append (st : cmd) (a b : List (List Byte)) :
    text_steps st (a ++ b) = text_steps (text_steps st a) b := by
  simp [text_steps, List.foldl_append]

theorem text_steps_ne_end (lines : List (List Byte)) :
    ∀ st : cmd, st.state ≠ CMD_STATE.CMD_END →
      (text_steps st lines).state ≠ CMD_STATE.CMD_END := by
  induction lines with
  | nil => intro st h; exact h
  | cons L Ls ih => intro st h; exact ih _ (text_step_ne_end st _ h)

theorem lines_ok_append (a b : List (List Byte)) :
    ∀ st : cmd, lines_ok st (a ++ b) ↔ lines_ok st a ∧ lines_ok (text_steps st a) b := by
  induction a with
  | nil => intro st; simp [lines_ok, text_steps]
  | cons L Ls ih =>
    intro st
    have e : text_steps st (L :: Ls) = text_steps (text_step st (strip_cr L)) Ls := rfl
    show (_ ∧ lines_ok (text_step st (strip_cr L)) (Ls ++ b)) ↔ _
    rw [ih, e]
    simp only [lines_ok, and_assoc]

theorem handle_cmds_lines (w : World) (lines : List (List Byte)) (tail : List Byte) (st : cmd)
    (h10 : ∀ L ∈ lines, 10 ∉ L) (hend : st.state ≠ CMD_STATE.CMD_END)
    (hok : lines_ok st lines) :
    ∃ r, handle_cmds w (wire lines ++ tail) (wire lines).length st = some r ∧
      r.st = text_steps st lines ∧ r.ret = ((wire lines).length : Int) := by
  unfold handle_cmds
  exact handle_cmds_loop_lines lines _ w [] tail _ 0 st h10 (by simp) (length_le_wire lines)
    hend hok

theorem feed_line_reads (parts : List (List (List Byte) × List Byte)) :
    ∀ (w : World) (st : cmd), (∀ L ∈ (parts.map Prod.fst).flatten, 10 ∉ L) →
      st.state ≠ CMD_STATE.CMD_END → lines_ok st (parts.map Prod.fst).flatten →
      ∃ r, feed w st (line_reads parts) = some r ∧
        r.1 = text_steps st (parts.map Prod.fst).flatten := by
  induction parts with
  | nil => intro w st _ _ _; exact ⟨_, rfl, rfl⟩
  | cons p ps ih =>
    intro w st h10 hend hok
    simp only [List.map_cons, List.flatten_cons] at h10 hok ⊢
    rw [lines_ok_append] at hok
    obtain ⟨r, hr1, hr2, _⟩ := handle_cmds_lines w p.1 p.2 st
      (fun L hL => h10 L (by simp [hL])) hend hok.1
    obtain ⟨r2, hr3, hr4⟩ := ih r.w r.st (fun L hL => h10 L (List.mem_append_right _ hL))
      (by rw [hr2]; exact text_steps_ne_end _ _ hend) (by rw [hr2]; exact hok.2)
    refine ⟨r2, ?_, ?_⟩
    · simp only [line_reads, List.map_cons, feed, hr1]
      exact hr3
    · rw [hr4, hr2, text_steps_append]

/-! ## Well-formed inputs meet the condition on variable lines -/

theorem strcspn_lt_of_colon (T : List Byte) (h : 58 ∈ T) : strcspn_colon T < T.length := by
  induction T with
  | nil => simp at h
  | cons x xs ih =>
    unfold strcspn_colon at ih ⊢
    by_cases hx : x ≠ 0 ∧ x ≠ 58
    · have h2 : 58 ∈ xs := by
        rcases List.mem_cons.1 h with h | h
        · exact absurd h.symm hx.2
        · exact h
      have := ih h2
      have e : (List.takeWhile (fun b => decide (b ≠ 0 ∧ b ≠ 58)) (x :: xs)) =
          x :: List.takeWhile (fun b => decide (b ≠ 0 ∧ b ≠ 58)) xs := by
        rw [List.takeWhile_cons]
        simp [hx]
      rw [e]
      simp only [List.length_cons]
      omega
    · simp [List.takeWhile_cons, hx]

theorem colon_mem_strip_cr (L : List Byte) (h : 58 ∈ L) : 58 ∈ strip_cr L := by
  unfold strip_cr
  split
  · rename_i hl
    rcases List.eq_nil_or_concat L with h0 | ⟨L0, x, h0⟩
    · subst h0; simp at h
    · subst h0
      simp [List.getLast?_concat] at hl
      subst hl
      simp at h ⊢
      exact h
  · exact h

theorem text_step_mid (st : cmd) (T : List Byte)
    (h : st.state = CMD_STATE.CMD_CMD ∨ st.state = CMD_STATE.CMD_VAR) :
    (text_step st T).state = CMD_STATE.CMD_CMD ∨
      (text_step st T).state = CMD_STATE.CMD_VAR := by
  rcases h with hs | hs
  · simp only [text_step, hs]
    split_ifs
    · exact Or.inl hs
    · exact Or.inr rfl
  · simp only [text_step, hs]
    split_ifs
    · exact Or.inl rfl
    · exact Or.inr (by rw [handle_var_state])

theorem vars_ok (vars : List (List Byte)) :
    ∀ st : cmd, (st.state = CMD_STATE.CMD_CMD ∨ st.state = CMD_STATE.CMD_VAR) →
      (∀ v ∈ vars, 58 ∈ v) →
      lines_ok st vars ∧ ((text_steps st vars).state = CMD_STATE.CMD_CMD ∨
        (text_steps st vars).state = CMD_STATE.CMD_VAR) := by
  induction vars with
  | nil => intro st h _; exact ⟨trivial, h⟩
  | cons v vs ih =>
    intro st h hv
    obtain ⟨h1, h2⟩ := ih (text_step st (strip_cr v)) (text_step_mid st _ h)
      (fun x hx => hv x (by simp [hx]))
    refine ⟨⟨fun _ => Or.inl ?_, h1⟩, h2⟩
    exact strcspn_lt_of_colon _ (colon_mem_strip_cr v (hv v (by simp)))

theorem blank_ok (st : cmd) (b : List Byte)
    (h : st.state = CMD_STATE.CMD_CMD ∨ st.state = CMD_STATE.CMD_VAR)
    (hb : b = [] ∨ b = [13]) :
    lines_ok st [b] ∧ (text_steps st [b]).state = CMD_STATE.CMD_CMD := by
  have e : strip_cr b = [] := by
    rcases hb with hb | hb <;> subst hb <;> decide
  refine ⟨⟨fun _ => Or.inr e, trivial⟩, ?_⟩
  show (text_step st (strip_cr b)).state = _
  rw [e]
  rcases h with hs | hs
  · simp [text_step, hs, cstr]
  · simp [text_step, hs, cstr]

theorem command_ok (c : Command) (st : cmd) (hs : st.state = CMD_STATE.CMD_CMD)
    (hv : ∀ v ∈ c.vars, 58 ∈ v) (hb : c.blank = [] ∨ c.blank = [13]) :
    lines_ok st c.lines ∧ (text_steps st c.lines).state = CMD_STATE.CMD_CMD := by
  have hne : st.state ≠ CMD_STATE.CMD_VAR := by rw [hs]; decide
  have hmid := text_step_mid st (strip_cr c.name) (Or.inl hs)
  obtain ⟨h1, h2⟩ := vars_ok c.vars _ hmid hv
  obtain ⟨h3, h4⟩ := blank_ok _ c.blank h2 hb
  have e : text_steps st c.lines =
      text_steps (text_steps (text_step st (strip_cr c.name)) c.vars) [c.blank] := by
    show text_steps (text_step st (strip_cr c.name)) (c.vars ++ [c.blank]) = _
    rw [text_steps_append]
  refine ⟨⟨fun h => absurd h hne, ?_⟩, by rw [e]; exact h4⟩
  rw [lines_ok_append]
  exact ⟨h1, h3⟩

theorem commands_ok (cmds : List Command) :
    ∀ st : cmd, st.state = CMD_STATE.CMD_CMD →
      (∀ c ∈ cmds, (∀ v ∈ c.vars, 58 ∈ v) ∧ (c.blank = [] ∨ c.blank = [13])) →
      lines_ok st (cmds.map Command.lines).flatten := by
  induction cmds with
  | nil => intro st _ _; exact trivial
  | cons c cs ih =>
    intro st hs h
    obtain ⟨h1, h2⟩ := command_ok c st hs (h c (by simp)).1 (h c (by simp)).2
    simp only [List.map_cons, List.flatten_cons]
    rw [lines_ok_append]
    exact ⟨h1, ih _ h2 (fun x hx => h x (by simp [hx]))⟩

theorem input_ok (greeting : List Byte) (cmds : List Command)
    (h : well_formed greeting cmds) :
    lines_ok cmd_zero (input_lines greeting cmds) ∧
      ∀ L ∈ input_lines greeting cmds, 10 ∉ L := by
  obtain ⟨hg, hc⟩ := h
  refine ⟨?_, ?_⟩
  · have e : lines_ok cmd_zero (input_lines greeting cmds) =
        ((cmd_zero.state = CMD_STATE.CMD_VAR →
          strcspn_colon (strip_cr greeting) < (strip_cr greeting).length ∨
            strip_cr greeting = []) ∧
        lines_ok (text_step cmd_zero (strip_cr greeting))
          (cmds.map Command.lines).flatten) := rfl
    rw [e]
    refine ⟨fun h => absurd h (by decide), ?_⟩
    exact commands_ok cmds (text_step cmd_zero (strip_cr greeting)) rfl (fun c hcm => ⟨fun v hv => ((hc c hcm).2.1 v hv).2, (hc c hcm).2.2⟩)
  · intro L hL
    simp only [input_lines, List.mem_cons, List.mem_flatten, List.mem_map] at hL
    rcases hL with hL | ⟨ls, ⟨c, hcm, rfl⟩, hL⟩
    · rw [hL]; exact hg
    · simp only [Command.lines, List.mem_cons, List.mem_append, List.mem_singleton,
        List.not_mem_nil, or_false] at hL
      rcases hL with hL | hL | hL
      · rw [hL]; exact (hc c hcm).1
      · exact ((hc c hcm).2.1 L hL).1
      · rw [hL]
        rcases (hc c hcm).2.2 with hb | hb <;> rw [hb] <;> decide

theorem buf_shape (buf : List Byte) (len i : Nat) (h : memchr buf 10 len = some i) :
    buf = buf.take i ++ 10 :: buf.drop (i + 1) ∧ 10 ∉ buf.take i ∧
      (buf.take i).length = i ∧ i < len := by
  obtain ⟨h1, h2, h3⟩ := (memchr_eq_some buf 10 len i).1 h
  have hi : i < buf.length := memchr_lt_length h
  refine ⟨?_, ?_, ?_, h1⟩
  · have e : buf[i] = 10 := by simpa [List.getElem?_eq_getElem hi] using h2
    conv_lhs => rw [← List.take_append_drop i buf]
    rw [List.drop_eq_getElem_cons hi, e]
  · intro hm
    obtain ⟨j, hj, hje⟩ := List.getElem_of_mem hm
    have hj2 : j < i := by
      have := hj
      simp only [List.length_take] at this
      omega
    apply h3 j hj2
    rw [List.getElem_take] at hje
    rw [List.getElem?_eq_getElem (by omega), hje]
  · simp only [List.length_take]; omega


theorem handle_line_append_world (w : World) (L rest : List Byte) (len : Nat) (st : cmd)
    (h10 : 10 ∉ L) (hlen : L.length < len)
    (hok : st.state = CMD_STATE.CMD_VAR →
      strcspn_colon (strip_cr L) < (strip_cr L).length ∨ strip_cr L = []) :
    (handle_line w (L ++ 10 :: rest) len st).w = line_world w L rest len st := by
  have hr := readline_append L rest len h10 hlen
  have hpos : (L.length : Int) + 1 > 0 := by omega
  have hT := strip_cr_length_le L
  unfold line_world
  generalize hTd : strip_cr L = T at *
  generalize htd : List.replicate (L.length - T.length) 0 ++ rest = t at *
  cases hs : st.state
  · have hcond : ¬ (CMD_STATE.CMD_HEADER = CMD_STATE.CMD_VAR ∧ cstr T ≠ [] ∧
        cstr (T.take (strcspn_colon T)) = bytes "data") := fun h => by cases h.1
    simp only [handle_line, hs, hr, if_pos hpos, if_neg hcond]
  · have hcond : ¬ (CMD_STATE.CMD_CMD = CMD_STATE.CMD_VAR ∧ cstr T ≠ [] ∧
        cstr (T.take (strcspn_colon T)) = bytes "data") := fun h => by cases h.1
    simp only [handle_line, hs, hr, if_neg hcond]
    split <;> rfl
  · simp only [handle_line, hs, hr, text_step]
    have hneg : ¬ ((L.length : Int) + 1 < 0) := by omega
    have hn : ((L.length : Int) + 1).toNat = L.length + 1 := by omega
    simp only [if_neg hneg, hn, strcspn_append_zero]
    by_cases he : cstr T = []
    · have h0 := (headD_append_zero T t).2 he
      have hcond : ¬ (True ∧ cstr T ≠ [] ∧
          cstr (T.take (strcspn_colon T)) = bytes "data") := fun h => h.2.1 he
      simp only [if_pos h0, if_pos he, if_neg hcond]
    · have h0 : ¬ (T ++ 0 :: t).headD 0 = 0 := fun h => he ((headD_append_zero T t).1 h)
      have htl : strcspn_colon T < T.length :=
        (hok hs).resolve_right (fun h => he (by rw [h]; rfl))
      have hge : ¬ (strcspn_colon T ≥ L.length + 1) := by omega
      simp only [if_neg h0, if_neg he, if_neg hge]
      have hbuf : ((T ++ 0 :: t).set (strcspn_colon T) 0).drop (L.length + 1) = rest := by
        rw [List.drop_set_of_lt _ _ (by omega), ← htd, ← hTd]
        exact drop_pad L rest
      have hname : (T ++ 0 :: t).set (strcspn_colon T) 0 =
          T.take (strcspn_colon T) ++ 0 :: (T.drop (strcspn_colon T + 1) ++ 0 :: t) := by
        rw [List.set_append_left _ _ htl, List.set_eq_take_append_cons_drop, if_pos htl]
        simp
      have hdrop : ((T ++ 0 :: t).set (strcspn_colon T) 0).drop (strcspn_colon T + 1) =
          T.drop (strcspn_colon T + 1) ++ 0 :: t := by
        rw [List.drop_set_of_lt _ _ (by omega), List.drop_append_of_le_length (by omega)]
      have hvalue : (T.drop (strcspn_colon T + 1) ++ 0 :: t).drop
            (strspn_space (T.drop (strcspn_colon T + 1))) =
          (T.drop (strcspn_colon T + 1)).drop (strspn_space (T.drop (strcspn_colon T + 1)))
            ++ 0 :: t := by
        rw [List.drop_append_of_le_length]
        unfold strspn_space
        exact List.Sublist.length_le (List.takeWhile_sublist _)
      have hst : handle_var ((T ++ 0 :: t).set (strcspn_colon T) 0)
            ((T.drop (strcspn_colon T + 1) ++ 0 :: t).drop
              (strspn_space (T.drop (strcspn_colon T + 1))))
            { st with state := CMD_STATE.CMD_VAR } =
          handle_var (T.take (strcspn_colon T))
            ((T.drop (strcspn_colon T + 1)).drop (strspn_space (T.drop (strcspn_colon T + 1))))
            { st with state := CMD_STATE.CMD_VAR } := by
        apply handle_var_congr
        · rw [hname, cstr_append_zero]
        · rw [hvalue, cstr_append_zero]
        · rw [hvalue, strtoul_append_zero]
      have hdata : strcmp_eq ((T ++ 0 :: t).set (strcspn_colon T) 0) (bytes "data") = true ↔
          cstr (T.take (strcspn_colon T)) = bytes "data" := by
        rw [strcmp_eq_iff _ _ (by decide), hname, cstr_append_zero]
      rw [hdrop, strspn_append_zero, hst, hbuf]
      by_cases hc : strcmp_eq ((T ++ 0 :: t).set (strcspn_colon T) 0) (bytes "data") = true
      · rw [if_pos hc, if_pos ⟨trivial, he, hdata.1 hc⟩]
      · rw [if_neg hc, if_neg (fun h => hc (hdata.2 h.2.2))]
  · have hcond : ¬ (CMD_STATE.CMD_END = CMD_STATE.CMD_VAR ∧ cstr T ≠ [] ∧
        cstr (T.take (strcspn_colon T)) = bytes "data") := fun h => by cases h.1
    simp only [handle_line, hs, if_neg hcond]

/-! ## One turn of the loop, and a read that ends inside a line -/

theorem receive_save_ok (w : World) (rem_buf : List Byte) (k : Nat) (name old : List Byte)
    (N : Nat) (hfile : file_get w.files name = some old)
    (hT : w.ftruncate_fails = false) (hM : w.mmap_fails = false)
    (hR : w.read_fails = false) :
    file_get (receive_save w rem_buf k (some name) N).2.files name =
      some (write_at (memcpy (resize old N) rem_buf (min k N)) (min k N)
        (transport_read w.transport (N - min k N)).1) ∧
    (receive_save w rem_buf k (some name) N).2.log =
      w.log ++ [Event.sys_open (some name), Event.sys_ftruncate N, Event.sys_mmap N,
                Event.sys_read (N - min k N)] ∧
    (receive_save w rem_buf k (some name) N).2.transport =
      (transport_read w.transport (N - min k N)).2 := by
  have hmin : (if k > N then N else k) = min k N := by
    split <;> omega
  refine ⟨?_, ?_, ?_⟩
  · simp only [receive_save, World.emit, World.write, hfile, hT, hM, hR, hmin]
    cases w.munmap_fails <;>
      simp [file_get_set_same _ name _ _ (file_get_set_same _ name _ _
        (file_get_set_same _ name _ _ hfile))]
  · simp only [receive_save, World.emit, World.write, hfile, hT, hM, hR, hmin]
    cases w.munmap_fails <;> simp
  · simp only [receive_save, World.emit, World.write, hfile, hT, hM, hR, hmin]
    cases w.munmap_fails <;> simp

theorem handle_cmds_loop_step (f : Nat) (w : World) (seen L rest : List Byte)
    (len total : Nat) (st : cmd) (h10 : 10 ∉ L) (hlen : L.length < len) (hlt : total < len)
    (hend : st.state ≠ CMD_STATE.CMD_END)
    (hok : st.state = CMD_STATE.CMD_VAR →
      strcspn_colon (strip_cr L) < (strip_cr L).length ∨ strip_cr L = []) :
    ∃ seen1, handle_cmds_loop (f + 1) w seen (L ++ 10 :: rest) len total st =
      handle_cmds_loop f (line_world w L rest len st) seen1 rest len
        (total + (L.length + 1)) (text_step st (strip_cr L)) := by
  obtain ⟨h1, h2, h3⟩ := handle_line_append w L rest len st h10 hlen hend hok
  have h4 := handle_line_append_world w L rest len st h10 hlen hok
  have hne : ¬ (handle_line w (L ++ 10 :: rest) len st).read_len = -1 := by
    rw [h1]; omega
  have hn : ((L.length : Int) + 1).toNat = L.length + 1 := by omega
  refine ⟨seen ++ (handle_line w (L ++ 10 :: rest) len st).buf.take (L.length + 1), ?_⟩
  conv_lhs => unfold handle_cmds_loop
  have hne2 : ¬ ((L.length : Int) + 1 = -1) := by omega
  simp only [if_pos hlt, h1, hn, h3, h2, h4, if_neg hne2]

theorem readline_keeps_text (P s : List Byte) (len : Nat) (h10 : 10 ∉ P) :
    (readline (P ++ 0 :: s) len).1 = -1 ∨
    ∃ s1, (readline (P ++ 0 :: s) len).2 = P ++ 0 :: s1 ∧
      (P.length : Int) + 2 ≤ (readline (P ++ 0 :: s) len).1 := by
  unfold readline
  cases hm : memchr (P ++ 0 :: s) 10 len with
  | none => exact Or.inl rfl
  | some i =>
    right
    obtain ⟨h1, h2, h3⟩ := (memchr_eq_some _ _ _ _).1 hm
    have hi : P.length < i := by
      by_contra hc
      rcases Nat.lt_or_ge i P.length with hlt | hge
      · rw [List.getElem?_append_left hlt, List.getElem?_eq_getElem hlt] at h2
        simp only [Option.some.injEq] at h2
        exact h10 (h2 ▸ List.getElem_mem hlt)
      · have e : i = P.length := by omega
        rw [e, List.getElem?_append_right (Nat.le_refl _)] at h2
        simp at h2
    simp only []
    have hset : ∀ (b : List Byte) (j : Nat), P.length < j →
        ∀ s0, b = P ++ 0 :: s0 → ∃ s1, b.set j 0 = P ++ 0 :: s1 := by
      intro b j hj s0 hb
      subst hb
      refine ⟨s0.set (j - P.length - 1) 0, ?_⟩
      rw [List.set_append_right _ _ (by omega)]
      obtain ⟨m, hm⟩ : ∃ m, j - P.length = m + 1 := ⟨j - P.length - 1, by omega⟩
      rw [hm, List.set_cons_succ]
      simp
    have hfirst : ∃ s0, (if 0 < i ∧ (P ++ 0 :: s).getD (i - 1) 0 = 13
        then (P ++ 0 :: s).set (i - 1) 0 else P ++ 0 :: s) = P ++ 0 :: s0 := by
      split
      · rename_i hc
        rcases Nat.lt_or_ge P.length (i - 1) with hlt | hge
        · exact hset _ _ hlt s rfl
        · have e : i - 1 = P.length := by omega
          refine ⟨s, ?_⟩
          rw [e, List.set_append_right _ _ (Nat.le_refl _)]
          simp
      · exact ⟨s, rfl⟩
    obtain ⟨s0, hs0⟩ := hfirst
    obtain ⟨s1, hs1⟩ := hset _ i hi s0 hs0
    exact ⟨s1, hs1, by omega⟩

theorem cstr_set_strcspn (P s1 : List Byte) :
    cstr ((P ++ 0 :: s1).set (strcspn_colon P) 0) = cstr (P.take (strcspn_colon P)) := by
  rcases Nat.lt_or_ge (strcspn_colon P) P.length with h | h
  · rw [List.set_append_left _ _ h, List.set_eq_take_append_cons_drop, if_pos h,
      List.append_assoc, List.cons_append, cstr_append_zero]
  · have e : strcspn_colon P = P.length := Nat.le_antisymm (strcspn_le_length P) h
    rw [e, List.set_append_right _ _ (Nat.le_refl _), List.take_length]
    simp [cstr_append_zero]

theorem handle_line_partial (w : World) (P s : List Byte) (len : Nat) (st : cmd)
    (h10 : 10 ∉ P) (hname : cstr (P.take (strcspn_colon P)) ≠ bytes "data") :
    (handle_line w (P ++ 0 :: s) len st).w = w ∧
    ((handle_line w (P ++ 0 :: s) len st).read_len = -1 ∨
      (P.length : Int) + 2 ≤ (handle_line w (P ++ 0 :: s) len st).read_len) := by
  have hr := readline_keeps_text P s len h10
  have hq : (readline (P ++ 0 :: s) len).1 = -1 ∨
      (P.length : Int) + 2 ≤ (readline (P ++ 0 :: s) len).1 := by
    rcases hr with h | ⟨_, _, h⟩
    · exact Or.inl h
    · exact Or.inr h
  cases hs : st.state
  · simp only [handle_line, hs]
    split
    · exact ⟨rfl, hq⟩
    · exact ⟨rfl, hq⟩
  · simp only [handle_line, hs]
    split
    · exact ⟨rfl, hq⟩
    · exact ⟨rfl, hq⟩
  · simp only [handle_line, hs]
    split_ifs with c1 c2 c3 c4
    · exact ⟨rfl, hq⟩
    · exact ⟨rfl, hq⟩
    · exact ⟨rfl, hq⟩
    · exfalso
      rcases hr with hr | ⟨s1, hr1, _⟩
      · omega
      · rw [hr1, strcspn_append_zero, strcmp_eq_iff _ _ (by decide), cstr_set_strcspn] at c4
        exact hname c4
    · exact ⟨rfl, hq⟩
  · simp [handle_line, hs]

theorem hello_scenario (w : World) (st : cmd) (old stale : List Byte)
    (hs : st.state = CMD_STATE.CMD_CMD)
    (hfile : file_get w.files (bytes "foo") = some old)
    (hT : w.ftruncate_fails = false) (hM : w.mmap_fails = false)
    (hR : w.read_fails = false) :
    ∃ r, handle_cmds w (bytes "open\ntoken: foo\ndata: 5\nhello" ++ 0 :: stale) 29
        st = some r ∧
      file_get r.w.files (bytes "foo") = some (bytes "hello") ∧
      r.w.transport = w.transport ∧
      r.w.log = w.log ++ [Event.call_receive_save (bytes "hello" ++ 0 :: stale) 21 (some (bytes "foo")) 5,
        Event.sys_open (some (bytes "foo")), Event.sys_ftruncate 5, Event.sys_mmap 5,
        Event.sys_read 0] := by
  have e : bytes "open\ntoken: foo\ndata: 5\nhello" ++ 0 :: stale =
      bytes "open" ++ 10 :: (bytes "token: foo" ++ 10 :: (bytes "data: 5" ++ 10 ::
        (bytes "hello" ++ 0 :: stale))) := by rfl
  unfold handle_cmds
  rw [e]
  obtain ⟨s1, h1⟩ := handle_cmds_loop_step 28 w [] (bytes "open")
    (bytes "token: foo" ++ 10 :: (bytes "data: 5" ++ 10 :: (bytes "hello" ++ 0 :: stale)))
    29 0 st (by decide) (by decide) (by decide) (by rw [hs]; decide)
    (fun h => absurd (hs ▸ h) (by decide))
  have w1 : line_world w (bytes "open")
      (bytes "token: foo" ++ 10 :: (bytes "data: 5" ++ 10 :: (bytes "hello" ++ 0 :: stale)))
      29 st = w := by
    unfold line_world
    rw [if_neg (fun h => absurd (hs ▸ h.1) (by decide))]
  have t1 : text_step st (strip_cr (bytes "open")) =
      ⟨CMD_STATE.CMD_VAR, CMD_TYPE.UNKNOWN, none, 0⟩ := by
    have c1 : ¬ cstr (strip_cr (bytes "open")) = [] := by decide
    have c2 : kind_of (strip_cr (bytes "open")) = CMD_TYPE.UNKNOWN := by decide
    simp only [text_step, hs, if_neg c1, c2]
  rw [h1, w1, t1]
  obtain ⟨s2, h2⟩ := handle_cmds_loop_step 27 w s1 (bytes "token: foo")
    (bytes "data: 5" ++ 10 :: (bytes "hello" ++ 0 :: stale))
    29 (0 + ((bytes "open").length + 1)) ⟨CMD_STATE.CMD_VAR, CMD_TYPE.UNKNOWN, none, 0⟩
    (by decide) (by decide) (by decide) (by decide) (by decide)
  have w2 : line_world w (bytes "token: foo")
      (bytes "data: 5" ++ 10 :: (bytes "hello" ++ 0 :: stale))
      29 ⟨CMD_STATE.CMD_VAR, CMD_TYPE.UNKNOWN, none, 0⟩ = w := by
    unfold line_world
    rw [if_neg (by decide)]
  have t2 : text_step ⟨CMD_STATE.CMD_VAR, CMD_TYPE.UNKNOWN, none, 0⟩
      (strip_cr (bytes "token: foo")) =
      ⟨CMD_STATE.CMD_VAR, CMD_TYPE.UNKNOWN, some (bytes "foo"), 0⟩ := by decide
  rw [h2, w2, t2]
  obtain ⟨s3, h3⟩ := handle_cmds_loop_step 26 w s2 (bytes "data: 5")
    (bytes "hello" ++ 0 :: stale)
    29 (0 + ((bytes "open").length + 1) + ((bytes "token: foo").length + 1))
    ⟨CMD_STATE.CMD_VAR, CMD_TYPE.UNKNOWN, some (bytes "foo"), 0⟩
    (by decide) (by decide) (by decide) (by decide) (by decide)
  have t3 : text_step ⟨CMD_STATE.CMD_VAR, CMD_TYPE.UNKNOWN, some (bytes "foo"), 0⟩
      (strip_cr (bytes "data: 5")) =
      ⟨CMD_STATE.CMD_VAR, CMD_TYPE.UNKNOWN, some (bytes "foo"), 5⟩ := by decide
  have w3 : line_world w (bytes "data: 5") (bytes "hello" ++ 0 :: stale)
      29 ⟨CMD_STATE.CMD_VAR, CMD_TYPE.UNKNOWN, some (bytes "foo"), 0⟩ =
      (receive_save (w.emit (Event.call_receive_save
        (bytes "hello" ++ 0 :: stale) 21 (some (bytes "foo")) 5))
        (bytes "hello" ++ 0 :: stale) 21 (some (bytes "foo")) 5).2 := by
    unfold line_world
    rw [if_pos (by decide), t3]
    rfl
  rw [h3, w3, t3]
  obtain ⟨f1, f2, f3⟩ := receive_save_ok (w.emit (Event.call_receive_save
      (bytes "hello" ++ 0 :: stale) 21 (some (bytes "foo")) 5))
    (bytes "hello" ++ 0 :: stale) 21 (bytes "foo") old 5 hfile hT hM hR
  have g1 : write_at (memcpy (resize old 5) (bytes "hello" ++ 0 :: stale)
      (min 21 5)) (min 21 5)
      (transport_read (w.emit (Event.call_receive_save
        (bytes "hello" ++ 0 :: stale) 21 (some (bytes "foo")) 5)).transport
        (5 - min 21 5)).1 = bytes "hello" := by
    have hd : (resize old 5).drop 5 = [] := by
      rw [List.drop_eq_nil_iff, resize_length]
    show (bytes "hello" ++ (resize old 5).drop 5).take 5 ++ [] ++
      (bytes "hello" ++ (resize old 5).drop 5).drop 5 = bytes "hello"
    rw [hd]
    rfl
  have g3 : (transport_read (w.emit (Event.call_receive_save
        (bytes "hello" ++ 0 :: stale) 21 (some (bytes "foo")) 5)).transport
        (5 - min 21 5)).2 = w.transport := by
    rfl
  rw [g1] at f1
  rw [g3] at f3
  have f2b : (receive_save (w.emit (Event.call_receive_save
      (bytes "hello" ++ 0 :: stale) 21 (some (bytes "foo")) 5))
      (bytes "hello" ++ 0 :: stale) 21 (some (bytes "foo")) 5).2.log =
      w.log ++
      [Event.call_receive_save (bytes "hello" ++ 0 :: stale) 21 (some (bytes "foo")) 5,
        Event.sys_open (some (bytes "foo")), Event.sys_ftruncate 5, Event.sys_mmap 5,
        Event.sys_read 0] := by
    rw [f2]
    simp [World.emit]
  generalize (receive_save (w.emit (Event.call_receive_save
      (bytes "hello" ++ 0 :: stale) 21 (some (bytes "foo")) 5))
      (bytes "hello" ++ 0 :: stale) 21 (some (bytes "foo")) 5).2 = W at f1 f2b f3 ⊢
  obtain ⟨p1, p2⟩ := handle_line_partial W (bytes "hello") stale 29
    ⟨CMD_STATE.CMD_VAR, CMD_TYPE.UNKNOWN, some (bytes "foo"), 5⟩ (by decide) (by decide)
  unfold handle_cmds_loop
  rw [if_pos (by decide)]
  simp only []
  by_cases hm : (handle_line W (bytes "hello" ++ 0 :: stale) 29
      ⟨CMD_STATE.CMD_VAR, CMD_TYPE.UNKNOWN, some (bytes "foo"), 5⟩).read_len = -1
  · rw [if_pos hm]
    refine ⟨_, rfl, ?_⟩
    simp only [p1]
    exact ⟨f1, f3, f2b⟩
  · rw [if_neg hm]
    have h7 : (7 : Int) ≤ (handle_line W (bytes "hello" ++ 0 :: stale) 29
        ⟨CMD_STATE.CMD_VAR, CMD_TYPE.UNKNOWN, some (bytes "foo"), 5⟩).read_len := by
      rcases p2 with p2 | p2
      · exact absurd p2 hm
      · have : ((bytes "hello").length : Int) = 5 := by decide
        omega
    unfold handle_cmds_loop
    have hl : (bytes "open").length = 4 := by decide
    have hl2 : (bytes "token: foo").length = 10 := by decide
    have hl3 : (bytes "data: 5").length = 7 := by decide
    rw [if_neg (by rw [hl, hl2, hl3]; omega)]
    refine ⟨_, rfl, ?_⟩
    simp only [p1]
    exact ⟨f1, f3, f2b⟩

theorem cstr_eq_self (L : List Byte) (h : 0 ∉ L) : cstr L = L := by
  unfold cstr
  rw [List.takeWhile_eq_self_iff]
  intro b hb
  have : b ≠ 0 := fun e => h (e ▸ hb)
  simpa using this

theorem line_text_of_no_nul (buf : List Byte) (len : Nat) (L : List Byte)
    (hL : next_line buf len = some L) (h0 : 0 ∉ L) : line_text buf len = some L := by
  unfold line_text
  rw [hL, Option.map_some', cstr_eq_self L h0]

theorem feed_append (a : List (List Byte × Nat)) :
    ∀ (w : World) (st : cmd) (b : List (List Byte × Nat)),
      feed w st (a ++ b) = (feed w st a).bind (fun r => feed r.2 r.1 b) := by
  induction a with
  | nil => intro w st b; rfl
  | cons x xs ih =>
    intro w st b
    obtain ⟨buf, len⟩ := x
    simp only [List.cons_append, feed]
    cases handle_cmds w buf len st with
    | none => rfl
    | some r => exact ih r.w r.st b

theorem handle_cmds_piece (w : World) (p t : List Byte) (st : cmd)
    (hs : st.state = CMD_STATE.CMD_HEADER) (h10 : 10 ∉ p) :
    ∃ r, handle_cmds w (p ++ t) p.length st = some r ∧ r.st = st ∧ r.w = w := by
  unfold handle_cmds
  cases hp : p.length with
  | zero =>
    unfold handle_cmds_loop
    rw [if_neg (by omega)]
    exact ⟨_, rfl, rfl, rfl⟩
  | succ n =>
    have hm : memchr (p ++ t) 10 (n + 1) = none := by
      rw [memchr_eq_none]
      intro j hj
      have hj2 : j < p.length := by omega
      rw [List.getElem?_append_left hj2, List.getElem?_eq_getElem hj2]
      intro h
      simp only [Option.some.injEq] at h
      exact h10 (h ▸ List.getElem_mem hj2)
    have hl : handle_line w (p ++ t) (n + 1) st = ⟨-1, p ++ t, st, w⟩ := by
      simp [handle_line, hs, readline, hm]
    unfold handle_cmds_loop
    rw [if_pos (by omega)]
    simp only [hl, if_true]
    exact ⟨_, rfl, rfl, rfl⟩

theorem feed_piece_reads (pieces : List (List Byte × List Byte)) :
    ∀ (w : World) (st : cmd), st.state = CMD_STATE.CMD_HEADER →
      (∀ p ∈ pieces, 10 ∉ p.1) → feed w st (piece_reads pieces) = some (st, w) := by
  induction pieces with
  | nil => intro w st _ _; rfl
  | cons p ps ih =>
    intro w st hs h10
    obtain ⟨r, h1, h2, h3⟩ := handle_cmds_piece w p.1 p.2 st hs (h10 p (by simp))
    simp only [piece_reads, List.map_cons, feed, h1]
    rw [h2, h3]
    exact ih w st hs (fun q hq => h10 q (by simp [hq]))

/-! ## `handle_line` in terms of the next line of the buffer -/

theorem handle_line_next (w : World) (buf : List Byte) (len i : Nat) (st : cmd)
    (hm : memchr buf 10 len = some i) (hend : st.state ≠ CMD_STATE.CMD_END)
    (hok : st.state = CMD_STATE.CMD_VAR →
      strcspn_colon (strip_cr (buf.take i)) < (strip_cr (buf.take i)).length ∨
        strip_cr (buf.take i) = []) :
    (handle_line w buf len st).read_len = (i : Int) + 1 ∧
    (handle_line w buf len st).st = text_step st (strip_cr (buf.take i)) ∧
    (handle_line w buf len st).w = line_world w (buf.take i) (buf.drop (i + 1)) len st := by
  obtain ⟨h1, h2, h3, h4⟩ := buf_shape buf len i hm
  obtain ⟨a, b, _⟩ := handle_line_append w (buf.take i) (buf.drop (i + 1)) len st h2
    (by omega) hend hok
  have c := handle_line_append_world w (buf.take i) (buf.drop (i + 1)) len st h2
    (by omega) hok
  rw [← h1] at a b c
  rw [h3] at a
  exact ⟨a, b, c⟩

theorem line_text_eq (buf : List Byte) (len : Nat) (T : List Byte)
    (h : line_text buf len = some T) :
    ∃ i, memchr buf 10 len = some i ∧ cstr (strip_cr (buf.take i)) = T := by
  unfold line_text next_line at h
  cases hm : memchr buf 10 len with
  | none => simp [hm] at h
  | some i =>
    simp only [hm, Option.map_some', Option.some.injEq] at h
    exact ⟨i, rfl, h⟩

theorem next_line_eq_none (buf : List Byte) (len : Nat) :
    next_line buf len = none ↔ ∀ j, j < len → buf[j]? ≠ some 10 := by
  unfold next_line
  rw [Option.map_eq_none', memchr_eq_none]

theorem cstr_nil_ok (T : List Byte) (h : cstr T = []) :
    strcspn_colon T < T.length ∨ T = [] := by
  cases T with
  | nil => exact Or.inr rfl
  | cons x xs =>
    left
    by_cases hx : x = 0
    · subst hx
      simp [strcspn_colon]
    · simp [cstr, List.takeWhile_cons, hx] at h

/-! ## Decimal numerals and `strtoul` -/

theorem numeral_value_concat (ds : List Byte) (d : Byte) :
    numeral_value (ds ++ [d]) = (d - 48) + 10 * numeral_value ds := by
  simp [numeral_value, digits_le_value]

theorem foldl_digits (ds : List Byte) :
    ds.foldl (fun acc d => acc * 10 + (d - 48)) 0 = numeral_value ds := by
  induction ds using List.reverseRecOn with
  | nil => rfl
  | append_singleton ds d ih =>
    rw [List.foldl_append, numeral_value_concat, ih]
    simp only [List.foldl_cons, List.foldl_nil]
    omega

theorem digit_facts (d : Nat) (h : 48 ≤ d ∧ d ≤ 57) :
    ¬ d = 45 ∧ ¬ d = 43 ∧ ¬ d = 32 ∧ ¬ d ≤ 13 := by
  omega

theorem strtoul_digits (ds : List Byte) (hne : ds ≠ []) (hd : ∀ b ∈ ds, isdigit b = true) :
    strtoul ds = if numeral_value ds > ULONG_MAX then ULONG_MAX else numeral_value ds := by
  cases ds with
  | nil => exact absurd rfl hne
  | cons d ds =>
    have hdd : isdigit d = true := hd d (by simp)
    have h48 : 48 ≤ d ∧ d ≤ 57 := by simpa [isdigit] using hdd
    obtain ⟨e45, e43, e32, e13⟩ := digit_facts d h48
    have hsp : isspace d = false := by
      simp [isspace, e32, e13]
    have htw : (d :: ds).takeWhile isdigit = d :: ds := by
      rw [List.takeWhile_eq_self_iff]
      exact hd
    have hdw : (d :: ds).dropWhile isspace = d :: ds := by
      simp [List.dropWhile_cons, hsp]
    unfold strtoul
    rw [hdw]
    simp only [List.head?_cons, Option.some.injEq, e45, e43, or_self, if_false, htw,
      foldl_digits, decide_False, Bool.false_eq_true]

theorem decimal_aux_spec (fuel : Nat) :
    ∀ (n : Nat) (acc : List Byte), n < fuel →
      ∃ D, decimal_aux fuel n acc = D ++ acc ∧ D ≠ [] ∧ (∀ b ∈ D, isdigit b = true) ∧
        numeral_value D = n := by
  induction fuel with
  | zero => intro n acc h; omega
  | succ f ih =>
    intro n acc h
    unfold decimal_aux
    by_cases h10 : n < 10
    · rw [if_pos h10]
      refine ⟨[48 + n], rfl, by simp, ?_, ?_⟩
      · intro b hb
        simp only [List.mem_singleton] at hb
        subst hb
        simp only [isdigit, Bool.and_eq_true, decide_eq_true_eq]
        show (48 : Nat) ≤ 48 + n ∧ 48 + n ≤ (57 : Nat)
        omega
      · simp [numeral_value, digits_le_value]
    · rw [if_neg h10]
      obtain ⟨D, h1, h2, h3, h4⟩ := ih (n / 10) ((48 + n % 10) :: acc) (by omega)
      refine ⟨D ++ [48 + n % 10], by rw [h1]; simp, by simp, ?_, ?_⟩
      · intro b hb
        rcases List.mem_append.1 hb with hb | hb
        · exact h3 b hb
        · simp only [List.mem_singleton] at hb
          subst hb
          simp only [isdigit, Bool.and_eq_true, decide_eq_true_eq]
          show (48 : Nat) ≤ 48 + n % 10 ∧ 48 + n % 10 ≤ (57 : Nat)
          omega
      · rw [numeral_value_concat, h4]
        omega

theorem decimal_spec (n : Nat) :
    decimal n ≠ [] ∧ (∀ b ∈ decimal n, isdigit b = true) ∧ numeral_value (decimal n) = n := by
  obtain ⟨D, h1, h2, h3, h4⟩ := decimal_aux_spec (n + 1) n [] (by omega)
  have e : decimal n = D := by
    unfold decimal
    rw [h1, List.append_nil]
  rw [e]
  exact ⟨h2, h3, h4⟩

theorem strtoul_decimal (n : Nat) (h : n ≤ ULONG_MAX) : strtoul (decimal n) = n := by
  obtain ⟨h1, h2, h3⟩ := decimal_spec n
  rw [strtoul_digits _ h1 h2, h3, if_neg (by omega)]


/-! ## The effect of a variable line on the parse state -/

theorem cstr_split (T : List Byte) :
    ∃ tl, T = cstr T ++ tl ∧ (tl = [] ∨ ∃ m, tl = 0 :: m) := by
  induction T with
  | nil => exact ⟨[], rfl, Or.inl rfl⟩
  | cons x xs ih =>
    by_cases hx : x = 0
    · subst hx
      exact ⟨0 :: xs, by simp [cstr], Or.inr ⟨xs, rfl⟩⟩
    · obtain ⟨tl, h1, h2⟩ := ih
      refine ⟨tl, ?_, h2⟩
      have e : cstr (x :: xs) = x :: cstr xs := by
        simp [cstr, List.takeWhile_cons, hx]
      rw [e, List.cons_append, ← h1]

theorem cstr_no_nul (T : List Byte) : 0 ∉ cstr T := by
  intro h
  have := List.mem_takeWhile_imp h
  simp at this

theorem drop_takeWhile_length (p : Byte → Bool) (l : List Byte) :
    l.drop (l.takeWhile p).length = l.dropWhile p := by
  induction l with
  | nil => rfl
  | cons x xs ih =>
    cases hx : p x <;> simp [List.takeWhile_cons, List.dropWhile_cons, hx, ih]

theorem text_step_var (st : cmd) (T name rest : List Byte)
    (hs : st.state = CMD_STATE.CMD_VAR) (hT : cstr T = name ++ 58 :: rest)
    (hn : 58 ∉ name) :
    strcspn_colon T < T.length ∧
    text_step st T = handle_var name (rest.dropWhile (fun b => b = 32)) st ∧
    T.take (strcspn_colon T) = name := by
  obtain ⟨tl, h1, h2⟩ := cstr_split T
  have h0 := cstr_no_nul T
  rw [hT] at h1 h0
  have hname : ∀ b ∈ name, (decide (b ≠ 0 ∧ b ≠ 58)) = true := by
    intro b hb
    have b0 : b ≠ 0 := fun e => h0 (by rw [← e]; exact List.mem_append_left _ hb)
    have b58 : b ≠ 58 := fun e => hn (e ▸ hb)
    simp [b0, b58]
  have htl : strcspn_colon T = name.length := by
    unfold strcspn_colon
    rw [h1, List.append_assoc, List.takeWhile_append_of_pos hname]
    simp [List.takeWhile_cons]
  have hlen : T.length = name.length + 1 + rest.length + tl.length := by
    rw [h1]; simp; omega
  have htake : T.take name.length = name := by
    rw [h1, List.append_assoc, List.take_left]
  have hdrop : T.drop (name.length + 1) = rest ++ tl := by
    have e : T = (name ++ [58]) ++ (rest ++ tl) := by rw [h1]; simp
    rw [e]
    exact List.drop_left' (by simp)
  have hsp : strspn_space (rest ++ tl) = strspn_space rest := by
    rcases h2 with h | ⟨m, h⟩
    · rw [h, List.append_nil]
    · rw [h, strspn_append_zero]
  have hval : (rest ++ tl).drop (strspn_space rest) =
      rest.dropWhile (fun b => b = 32) ++ tl := by
    rw [List.drop_append_of_le_length]
    · unfold strspn_space
      rw [drop_takeWhile_length]
    · unfold strspn_space
      exact List.Sublist.length_le (List.takeWhile_sublist _)
  have hne : ¬ cstr T = [] := by rw [hT]; simp
  have hst : ({ st with state := CMD_STATE.CMD_VAR } : cmd) = st := by
    cases st
    simp only at hs
    subst hs
    rfl
  refine ⟨by omega, ?_, by rw [htl, htake]⟩
  simp only [text_step, hs, if_neg hne, htl, htake, hdrop, hsp, hval, hst]
  apply handle_var_congr
  · rfl
  · rcases h2 with h | ⟨m, h⟩
    · rw [h, List.append_nil]
    · rw [h, cstr_append_zero]
  · rcases h2 with h | ⟨m, h⟩
    · rw [h, List.append_nil]
    · rw [h, strtoul_append_zero]

theorem handle_var_text (name value : List Byte) (st : cmd) (hn : 0 ∉ name)
    (hv : 0 ∉ value) :
    handle_var name value st =
      if name = bytes "token" then { st with filename := some value }
      else if name = bytes "data" then { st with file_len := strtoul value }
      else st := by
  have e1 : strcmp_eq name (bytes "token") = true ↔ name = bytes "token" := by
    rw [strcmp_eq_iff _ _ (by decide), cstr_eq_self name hn]
  have e2 : strcmp_eq name (bytes "data") = true ↔ name = bytes "data" := by
    rw [strcmp_eq_iff _ _ (by decide), cstr_eq_self name hn]
  have ne : ¬ bytes "token" = bytes "data" := by decide
  unfold handle_var strdup
  rw [cstr_eq_self value hv]
  by_cases h1 : name = bytes "token"
  · have h2 : ¬ name = bytes "data" := by rw [h1]; exact ne
    rw [if_pos (e1.2 h1), if_neg (fun h => h2 (e2.1 h)), if_pos h1]
  · by_cases h2 : name = bytes "data"
    · rw [if_neg (fun h => h1 (e1.1 h)), if_pos (e2.2 h2), if_neg h1, if_pos h2]
    · rw [if_neg (fun h => h1 (e1.1 h)), if_neg (fun h => h2 (e2.1 h)), if_neg h1, if_neg h2]

/-! ## Reads in which no line calls the receive path -/

theorem handle_cmds_loop_quiet (lines : List (List Byte)) :
    ∀ (fuel : Nat) (w : World) (seen tail : List Byte) (len total : Nat) (st : cmd),
      (∀ L ∈ lines, 10 ∉ L) → total + (wire lines).length = len → lines.length ≤ fuel →
      st.state ≠ CMD_STATE.CMD_END → lines_ok st lines → lines_quiet st lines →
      ∃ r, handle_cmds_loop fuel w seen (wire lines ++ tail) len total st = some r ∧
        r.st = text_steps st lines ∧ r.ret = (len : Int) ∧ r.w = w := by
  induction lines with
  | nil =>
    intro fuel w seen tail len total st _ hlen _ _ _ _
    have : ¬ total < len := by simp [wire] at hlen; omega
    unfold handle_cmds_loop
    rw [if_neg this]
    refine ⟨_, rfl, rfl, ?_, rfl⟩
    simp [wire] at hlen
    simp [hlen]
  | cons L Ls ih =>
    intro fuel w seen tail len total st h10 hlen hfuel hend hok hq
    have hL : 10 ∉ L := h10 L (by simp)
    have hlt : total < len := by simp [wire] at hlen; omega
    have hLlen : L.length < len := by simp [wire] at hlen; omega
    obtain ⟨hok1, hok2⟩ := hok
    obtain ⟨hq1, hq2⟩ := hq
    cases fuel with
    | zero => simp at hfuel
    | succ f =>
      obtain ⟨seen1, hstep⟩ := handle_cmds_loop_step f w seen L (wire Ls ++ tail) len total st
        hL hLlen hlt hend hok1
      have e : wire (L :: Ls) ++ tail = L ++ 10 :: (wire Ls ++ tail) := by simp [wire]
      have hw : line_world w L (wire Ls ++ tail) len st = w := by
        unfold line_world
        rw [if_neg hq1]
      rw [e, hstep, hw]
      exact ih f w seen1 tail len _ _ (fun L hLm => h10 L (by simp [hLm]))
        (by simp [wire] at hlen; omega) (by simp at hfuel; omega)
        (text_step_ne_end _ _ hend) hok2 hq2

theorem handle_cmds_quiet (w : World) (lines : List (List Byte)) (tail : List Byte) (st : cmd)
    (h10 : ∀ L ∈ lines, 10 ∉ L) (hend : st.state ≠ CMD_STATE.CMD_END)
    (hok : lines_ok st lines) (hq : lines_quiet st lines) :
    ∃ r, handle_cmds w (wire lines ++ tail) (wire lines).length st = some r ∧
      r.st = text_steps st lines ∧ r.ret = ((wire lines).length : Int) ∧ r.w = w := by
  unfold handle_cmds
  exact handle_cmds_loop_quiet lines _ w [] tail _ 0 st h10 (by simp) (length_le_wire lines)
    hend hok hq

theorem lines_quiet_append (a b : List (List Byte)) :
    ∀ st : cmd, lines_quiet st (a ++ b) ↔
      lines_quiet st a ∧ lines_quiet (text_steps st a) b := by
  induction a with
  | nil => intro st; simp [lines_quiet, text_steps]
  | cons L Ls ih =>
    intro st
    have e : text_steps st (L :: Ls) = text_steps (text_step st (strip_cr L)) Ls := rfl
    show (_ ∧ lines_quiet (text_step st (strip_cr L)) (Ls ++ b)) ↔ _
    rw [ih, e]
    simp only [lines_quiet, and_assoc]

theorem handle_var_kind (name value : List Byte) (st : cmd) :
    (handle_var name value st).cmd_type = st.cmd_type := by
  unfold handle_var
  split_ifs <;> rfl

theorem var_name_strip_cr (v : List Byte) (h0 : 0 ∉ v) (hc : 58 ∈ v) :
    (strip_cr v).take (strcspn_colon (strip_cr v)) = var_name v ∧ cstr (strip_cr v) ≠ [] := by
  have key : ∀ u : List Byte, 0 ∉ u → 58 ∈ u → ∀ t : List Byte,
      u.take (strcspn_colon u) = (u ++ t).takeWhile (fun b => b ≠ 58) := by
    intro u
    induction u with
    | nil => intro _ h; simp at h
    | cons x xs ih =>
      intro hu0 hu t
      have x0 : x ≠ 0 := fun e => hu0 (by simp [e])
      by_cases hx : x = 58
      · subst hx
        simp [strcspn_colon, List.takeWhile_cons]
      · have h58 : 58 ∈ xs := by
          rcases List.mem_cons.1 hu with h | h
          · exact absurd h.symm hx
          · exact h
        have := ih (fun h => hu0 (List.mem_cons_of_mem _ h)) h58 t
        unfold strcspn_colon at this ⊢
        simp only [List.cons_append, List.takeWhile_cons, x0, hx, ne_eq, not_false_eq_true,
          and_self, decide_True, if_true, List.length_cons, List.take_succ_cons, decide_not,
          Bool.not_eq_true', decide_eq_false_iff_not]
        simp only [ne_eq, decide_not] at this
        rw [this]
  have hs0 : 0 ∉ strip_cr v := by
    unfold strip_cr
    split
    · exact fun h => h0 (List.mem_of_mem_dropLast h)
    · exact h0
  have hsc := colon_mem_strip_cr v hc
  have hne : cstr (strip_cr v) ≠ [] := by
    rw [cstr_eq_self _ hs0]
    intro h
    rw [h] at hsc
    simp at hsc
  refine ⟨?_, hne⟩
  unfold var_name
  by_cases hl : v.getLast? = some 13
  · have hv : v = strip_cr v ++ [13] := by
      unfold strip_cr
      rw [if_pos hl]
      rcases List.eq_nil_or_concat v with h | ⟨L0, x, h⟩
      · subst h; simp at hl
      · subst h
        simp [List.getLast?_concat] at hl
        subst hl
        simp
    rw [key _ hs0 hsc [13], ← hv]
  · have hv : strip_cr v = v := by
      unfold strip_cr
      rw [if_neg hl]
    rw [hv] at hs0 hsc ⊢
    have := key v hs0 hsc []
    rw [List.append_nil] at this
    exact this

theorem quiet_vars (vars : List (List Byte)) :
    ∀ st : cmd, st.state = CMD_STATE.CMD_VAR →
      (∀ v ∈ vars, 0 ∉ v ∧ 58 ∈ v ∧ var_name v ≠ bytes "data") →
      lines_ok st vars ∧ lines_quiet st vars ∧
      (text_steps st vars).state = CMD_STATE.CMD_VAR ∧
      (text_steps st vars).cmd_type = st.cmd_type := by
  induction vars with
  | nil => intro st hs _; exact ⟨trivial, trivial, hs, rfl⟩
  | cons v vs ih =>
    intro st hs hv
    obtain ⟨h0, hc, hname⟩ := hv v (by simp)
    obtain ⟨htake, hne⟩ := var_name_strip_cr v h0 hc
    have hstep : text_step st (strip_cr v) =
        handle_var ((strip_cr v).take (strcspn_colon (strip_cr v)))
          (((strip_cr v).drop (strcspn_colon (strip_cr v) + 1)).drop
            (strspn_space ((strip_cr v).drop (strcspn_colon (strip_cr v) + 1))))
          { st with state := CMD_STATE.CMD_VAR } := by
      simp only [text_step, hs, if_neg hne]
    have hs1 : (text_step st (strip_cr v)).state = CMD_STATE.CMD_VAR := by
      rw [hstep, handle_var_state]
    have hk1 : (text_step st (strip_cr v)).cmd_type = st.cmd_type := by
      rw [hstep, handle_var_kind]
    obtain ⟨a, b, c, d⟩ := ih (text_step st (strip_cr v)) hs1
      (fun x hx => hv x (by simp [hx]))
    have hvn0 : 0 ∉ var_name v := fun h =>
      h0 ((List.takeWhile_sublist _).subset h)
    refine ⟨⟨fun _ => Or.inl (strcspn_lt_of_colon _ (colon_mem_strip_cr v hc)), a⟩,
      ⟨?_, b⟩, c, by rw [← hk1]; exact d⟩
    intro h
    apply hname
    rw [← cstr_eq_self _ hvn0, ← htake]
    exact h.2.2


/-! ## Lines ended by a carriage return and a line feed -/

theorem strip_cr_concat_cr (L : List Byte) : strip_cr (L ++ [13]) = L := by
  simp [strip_cr]

theorem strip_cr_of_no_cr (L : List Byte) (h : 13 ∉ L) : strip_cr L = L := by
  unfold strip_cr
  rw [if_neg]
  intro hl
  exact h (List.mem_of_getLast?_eq_some hl)

theorem text_steps_map (f : List Byte → List Byte) (lines : List (List Byte))
    (hf : ∀ L ∈ lines, strip_cr (f L) = strip_cr L) :
    ∀ st : cmd, text_steps st (lines.map f) = text_steps st lines ∧
      (lines_ok st (lines.map f) ↔ lines_ok st lines) := by
  induction lines with
  | nil => intro st; exact ⟨rfl, Iff.rfl⟩
  | cons L Ls ih =>
    intro st
    have e := hf L (by simp)
    obtain ⟨a, b⟩ := ih (fun x hx => hf x (by simp [hx])) (text_step st (strip_cr L))
    constructor
    · show text_steps (text_step st (strip_cr (f L))) (Ls.map f) = _
      rw [e]
      exact a
    · show (_ ∧ lines_ok (text_step st (strip_cr (f L))) (Ls.map f)) ↔
        (_ ∧ lines_ok (text_step st (strip_cr L)) Ls)
      rw [e, b]

theorem lines_ok_take (lines : List (List Byte)) (k : Nat) (st : cmd)
    (h : lines_ok st lines) : lines_ok st (lines.take k) := by
  have e : lines = lines.take k ++ lines.drop k := (List.take_append_drop k lines).symm
  rw [e, lines_ok_append] at h
  exact h.1


/-! ## The phase after one call of `handle_line` -/

theorem handle_line_phase_aux (w : World) (buf : List Byte) (len : Nat) (st : cmd)
    (r : LineResult) (hr : handle_line w buf len st = r) :
    r.st.state = st.state ∨
    (st.state = CMD_STATE.CMD_HEADER ∧ r.st.state = CMD_STATE.CMD_CMD) ∨
    (st.state = CMD_STATE.CMD_CMD ∧ r.st.state = CMD_STATE.CMD_VAR) ∨
    (st.state = CMD_STATE.CMD_VAR ∧ r.st.state = CMD_STATE.CMD_CMD) := by
  cases hs : st.state <;> simp only [handle_line, hs] at hr
  · split_ifs at hr <;> subst hr
    · exact Or.inr (Or.inl ⟨rfl, rfl⟩)
    · exact Or.inl hs
  · split_ifs at hr <;> subst hr
    all_goals first
      | exact Or.inl hs
      | exact Or.inr (Or.inr (Or.inl ⟨rfl, rfl⟩))
  · split_ifs at hr <;> subst hr
    all_goals first
      | exact Or.inr (Or.inr (Or.inr ⟨rfl, rfl⟩))
      | exact Or.inl (by simp only [handle_var_state])
  · subst hr
    exact Or.inl hs

theorem handle_line_phase (w : World) (buf : List Byte) (len : Nat) (st : cmd) :
    (handle_line w buf len st).st.state = st.state ∨
    (st.state = CMD_STATE.CMD_HEADER ∧
      (handle_line w buf len st).st.state = CMD_STATE.CMD_CMD) ∨
    (st.state = CMD_STATE.CMD_CMD ∧
      (handle_line w buf len st).st.state = CMD_STATE.CMD_VAR) ∨
    (st.state = CMD_STATE.CMD_VAR ∧
      (handle_line w buf len st).st.state = CMD_STATE.CMD_CMD) :=
  handle_line_phase_aux w buf len st _ rfl

theorem handle_line_no_line (w : World) (buf : List Byte) (len : Nat) (st : cmd)
    (hm : memchr buf 10 len = none) (hv : st.state ≠ CMD_STATE.CMD_VAR) :
    (handle_line w buf len st).st = st := by
  cases hs : st.state
  · simp [handle_line, hs, readline, hm]
  · simp [handle_line, hs, readline, hm]
  · exact absurd hs hv
  · simp [handle_line, hs]

/-! ## The result of the loop -/

theorem handle_cmds_loop_ret (fuel : Nat) :
    ∀ (w : World) (seen buf : List Byte) (len total : Nat) (st : cmd) (r : CmdsResult),
      handle_cmds_loop fuel w seen buf len total st = some r →
      r.ret = -1 ∨ ((len : Int) ≤ r.ret ∧ (total : Int) ≤ r.ret) := by
  induction fuel with
  | zero =>
    intro w seen buf len total st r h
    unfold handle_cmds_loop at h
    by_cases hlt : total < len
    · rw [if_pos hlt] at h; cases h
    · rw [if_neg hlt] at h
      simp only [Option.some.injEq] at h
      subst h
      right
      simp only
      omega
  | succ f ih =>
    intro w seen buf len total st r h
    unfold handle_cmds_loop at h
    by_cases hlt : total < len
    · rw [if_pos hlt] at h
      simp only [] at h
      by_cases hm : (handle_line w buf len st).read_len = -1
      · rw [if_pos hm] at h
        simp only [Option.some.injEq] at h
        subst h
        exact Or.inl rfl
      · rw [if_neg hm] at h
        rcases ih _ _ _ _ _ _ r h with h1 | ⟨h1, h2⟩
        · exact Or.inl h1
        · right
          exact ⟨h1, by omega⟩
    · rw [if_neg hlt] at h
      simp only [Option.some.injEq] at h
      subst h
      right
      simp only
      omega

/-! ## The claims of the specification -/

/-- C1, the round trip, fails on the code.  (a) The file `foo` holds the eight
bytes `data: 0` and a line feed; the peer saves the same eight bytes back, all of
them in the read that holds the `data: 8` line.  `receive_save` writes them, then
`handle_cmds` frames the payload as a variable line `data: 0` and `receive_save`
runs again with length 0: the file is left empty.  (b) The file holds `abc`; the
three payload bytes are still on the socket when the read that holds `save`,
`token: foo` and `data: 3` is processed.  `receive_save` is given 16 as the
number of buffered bytes, copies three bytes that lie in the array after the
read (the NUL of `main`, then `X`, `Y`) into the file and reads nothing from
the socket. -/
theorem round_trip_broken :
    (handle_cmds ⟨[(bytes "foo", bytes "data: 0\n")], [], false, false, false, false, []⟩
        (bytes "save\ntoken: foo\ndata: 8\ndata: 0\n" ++ [0])
        (bytes "save\ntoken: foo\ndata: 8\ndata: 0\n").length after_greeting).map
      (fun r => file_get r.w.files (bytes "foo")) = some (some []) ∧
    (handle_cmds ⟨[(bytes "foo", bytes "abc")], [bytes "abc"], false, false, false, false, []⟩
        (bytes "save\ntoken: foo\ndata: 3\n" ++ [0, 88, 89])
        (bytes "save\ntoken: foo\ndata: 3\n").length after_greeting).map
      (fun r => (file_get r.w.files (bytes "foo"), r.w.transport)) =
        some (some [0, 88, 89], [bytes "abc"]) := by
  decide

/-- C2 as stated fails: a well-formed input (greeting `hi`, the command `save`
with no variable line, a blank line) delivered in one read leaves the kind
`SAVE`; delivered in the three reads `hi` with its line feed, `sa`, and the rest,
so that the only boundary inside a line is inside the command-name line and
none is inside a variable line, it leaves the kind `UNKNOWN`: the read `sa` has
no terminator and is dropped, and `ve` is taken as the name of the command. -/
theorem split_command_name_differs :
    (feed scenario_world cmd_zero
        [(bytes "hi\nsave\n\n" ++ [0], (bytes "hi\nsave\n\n").length)]).map Prod.fst =
      some ⟨CMD_STATE.CMD_CMD, CMD_TYPE.SAVE, none, 0⟩ ∧
    (feed scenario_world cmd_zero
        [(bytes "hi\n" ++ [0], (bytes "hi\n").length),
         (bytes "sa" ++ [0], (bytes "sa").length),
         (bytes "ve\n\n" ++ [0], (bytes "ve\n\n").length)]).map Prod.fst =
      some ⟨CMD_STATE.CMD_CMD, CMD_TYPE.UNKNOWN, none, 0⟩ := by
  decide

/-- C2, amended: for every well-formed peer input (a greeting line, then
commands each made of a command-name line, variable lines that have a colon
and a blank line) and every way of splitting it into successive reads at byte
boundaries that fall inside the greeting line or at the end of a line, whatever
lies in each array after the bytes read and whatever the worlds are, feeding
the reads one after another to `handle_cmds` from the initial parse state gives
a final parse state, and it is the one that feeding the whole input in one read
gives.  `pieces` are the reads that end inside the greeting, `g0` is the rest
of the greeting, `parts` are the reads made of whole lines. -/
theorem boundary_insensitive_at_lines (greeting : List Byte) (cmds : List Command)
    (pieces : List (List Byte × List Byte)) (g0 : List Byte)
    (parts : List (List (List Byte) × List Byte)) (tail : List Byte) (w1 w2 : World)
    (hwf : well_formed greeting cmds)
    (hgreet : (pieces.map Prod.fst).flatten ++ g0 = greeting)
    (hsplit : (parts.map Prod.fst).flatten = input_lines g0 cmds) :
    ∃ st, (feed w1 cmd_zero (piece_reads pieces ++ line_reads parts)).map Prod.fst = some st ∧
      (feed w2 cmd_zero [(wire (input_lines greeting cmds) ++ tail,
          (wire (input_lines greeting cmds)).length)]).map Prod.fst = some st := by
  have hg : 10 ∉ greeting := hwf.1
  have hg0 : 10 ∉ g0 := fun h => hg (by rw [← hgreet]; exact List.mem_append_right _ h)
  have hpieces : ∀ p ∈ pieces, 10 ∉ p.1 := by
    intro p hp h
    apply hg
    rw [← hgreet]
    apply List.mem_append_left
    rw [List.mem_flatten]
    exact ⟨p.1, List.mem_map_of_mem Prod.fst hp, h⟩
  have hend : cmd_zero.state ≠ CMD_STATE.CMD_END := by decide
  obtain ⟨hok0, h100⟩ := input_ok g0 cmds ⟨hg0, hwf.2⟩
  obtain ⟨hok, h10⟩ := input_ok greeting cmds hwf
  obtain ⟨r1, hr1, hr2⟩ := feed_line_reads parts w1 cmd_zero (by rw [hsplit]; exact h100) hend
    (by rw [hsplit]; exact hok0)
  obtain ⟨r2, hr3, hr4, _⟩ := handle_cmds_lines w2 (input_lines greeting cmds) tail cmd_zero
    h10 hend hok
  have hsame : text_steps cmd_zero (input_lines g0 cmds) =
      text_steps cmd_zero (input_lines greeting cmds) := rfl
  refine ⟨text_steps cmd_zero (input_lines greeting cmds), ?_, ?_⟩
  · rw [feed_append, feed_piece_reads pieces w1 cmd_zero rfl hpieces]
    simp only [Option.some_bind]
    rw [hr1, Option.map_some', hr2, hsplit, hsame]
  · simp only [feed, hr3, Option.map_some', hr4]

/-- An instance of `boundary_insensitive_at_lines`: two commands, lines ended
by a line feed or by a carriage return and a line feed, the greeting cut twice
and the rest cut into three reads at ends of lines. -/
theorem boundary_insensitive_at_lines_witness :
    well_formed (bytes "220 hi") [⟨bytes "save", [bytes "token: foo", bytes "x: y\r"], [13]⟩,
        ⟨bytes "close", [bytes "token: foo"], []⟩] ∧
    ∃ st, (feed scenario_world cmd_zero
        (piece_reads [(bytes "22", [0]), (bytes "0 ", [0, 10])] ++ line_reads
        [([bytes "hi", bytes "save", bytes "token: foo"], [0, 88]),
         ([bytes "x: y\r", [13], bytes "close"], [0]),
         ([bytes "token: foo", []], [0, 1, 2, 3])])).map Prod.fst = some st ∧
      (feed scenario_world cmd_zero [(wire (input_lines (bytes "220 hi")
          [⟨bytes "save", [bytes "token: foo", bytes "x: y\r"], [13]⟩,
           ⟨bytes "close", [bytes "token: foo"], []⟩]) ++ [0],
          (wire (input_lines (bytes "220 hi")
          [⟨bytes "save", [bytes "token: foo", bytes "x: y\r"], [13]⟩,
           ⟨bytes "close", [bytes "token: foo"], []⟩])).length)]).map Prod.fst = some st :=
  ⟨by unfold well_formed; decide,
   boundary_insensitive_at_lines (bytes "220 hi")
     [⟨bytes "save", [bytes "token: foo", bytes "x: y\r"], [13]⟩,
      ⟨bytes "close", [bytes "token: foo"], []⟩]
     [(bytes "22", [0]), (bytes "0 ", [0, 10])] (bytes "hi")
     [([bytes "hi", bytes "save", bytes "token: foo"], [0, 88]),
      ([bytes "x: y\r", [13], bytes "close"], [0]),
      ([bytes "token: foo", []], [0, 1, 2, 3])] [0] scenario_world scenario_world
     (by unfold well_formed; decide) (by decide) (by decide)⟩

/-- C3 fails on the code: the payload bytes that follow a `data: N` line in the
same read are handed to the line framer.  With the payload `token: bar` and a
line feed the token becomes `bar` and the payload bytes in the array are
overwritten (the colon and the line feed by NUL); with a payload of ten `x` and
a line feed the token stays `foo`; with the payload `data: 1` and a line feed
the declared length becomes 1 and `receive_save` is called a second time: it
resizes the file to one byte and stores there the byte that follows the read
in the array, the NUL of `main`. -/
theorem payload_is_framed :
    (handle_cmds scenario_world (bytes "save\ntoken: foo\ndata: 11\ntoken: bar\n" ++ [0])
        (bytes "save\ntoken: foo\ndata: 11\ntoken: bar\n").length after_greeting).map
      (fun r => (r.st.filename, r.buf.drop 25)) =
        some (some (bytes "bar"), [116, 111, 107, 101, 110, 0, 32, 98, 97, 114, 0, 0]) ∧
    (handle_cmds scenario_world (bytes "save\ntoken: foo\ndata: 11\nxxxxxxxxxx\n" ++ [0])
        (bytes "save\ntoken: foo\ndata: 11\nxxxxxxxxxx\n").length after_greeting).map
      (fun r => r.st.filename) = some (some (bytes "foo")) ∧
    (handle_cmds scenario_world (bytes "save\ntoken: foo\ndata: 8\ndata: 1\n" ++ [0])
        (bytes "save\ntoken: foo\ndata: 8\ndata: 1\n").length after_greeting).map
      (fun r => (r.st.file_len, r.w.log, file_get r.w.files (bytes "foo"))) =
        some (1, [Event.call_receive_save (bytes "data: 1\n" ++ [0]) 24 (some (bytes "foo")) 8,
                  Event.sys_open (some (bytes "foo")), Event.sys_ftruncate 8, Event.sys_mmap 8,
                  Event.sys_read 0,
                  Event.call_receive_save [0] 24 (some (bytes "foo")) 1,
                  Event.sys_open (some (bytes "foo")), Event.sys_ftruncate 1, Event.sys_mmap 1,
                  Event.sys_read 0],
              some [0]) := by
  decide

/-- C4 fails on the code: in phase `CMD_VAR` a line without a colon is not
rejected, since `strcspn` is never as large as `read_len`.  The bare line
`token` leaves the phase `CMD_VAR` and sets the token to the bytes that follow
the line in the array (`bar` and a line feed); the bare line `data` sets the
declared length from the bytes that follow (5) and calls `receive_save`, which
opens, resizes and writes the file and reads three bytes from the socket. -/
theorem colonless_line_not_rejected :
    handle_line scenario_world (bytes "token\nbar\n" ++ [0]) (bytes "token\nbar\n").length
        saving_foo =
      ⟨6, bytes "token" ++ [0] ++ bytes "bar\n" ++ [0],
        ⟨CMD_STATE.CMD_VAR, CMD_TYPE.SAVE, some (bytes "bar\n"), 7⟩, scenario_world⟩ ∧
    (handle_line scenario_world (bytes "data\n5\n" ++ [0]) (bytes "data\n5\n").length
        saving_foo).st = ⟨CMD_STATE.CMD_VAR, CMD_TYPE.SAVE, some (bytes "foo"), 5⟩ ∧
    (handle_line scenario_world (bytes "data\n5\n" ++ [0]) (bytes "data\n5\n").length
        saving_foo).w.log =
      [Event.call_receive_save (bytes "5\n" ++ [0]) 2 (some (bytes "foo")) 5,
       Event.sys_open (some (bytes "foo")), Event.sys_ftruncate 5, Event.sys_mmap 5,
       Event.sys_read 3] ∧
    file_get (handle_line scenario_world (bytes "data\n5\n" ++ [0]) (bytes "data\n5\n").length
        saving_foo).w.files (bytes "foo") = some [53, 10, 1, 2, 3] := by
  decide

/-- C5, the postcondition of the receive path: when the file exists and
`ftruncate`, `mmap` and `read` succeed, `receive_save` with a buffered suffix of
`k` bytes and the declared length `N` leaves the file with exactly `N` bytes, the
first `min k N` of them equal to the first `min k N` bytes of the suffix; it
makes the calls `open`, `ftruncate`, `mmap` and exactly one `read`, which asks for
`N - min k N` bytes; the bytes that read delivers are in the file from offset
`min k N` on, and they are taken off the socket. -/
theorem receive_save_post (w : World) (rem_buf : List Byte) (k : Nat) (name old : List Byte)
    (N : Nat) (hfile : file_get w.files name = some old) (hk : k ≤ rem_buf.length)
    (hT : w.ftruncate_fails = false) (hM : w.mmap_fails = false)
    (hR : w.read_fails = false) :
    ∃ content,
      file_get (receive_save w rem_buf k (some name) N).2.files name = some content ∧
      content.length = N ∧
      content.take (min k N) = rem_buf.take (min k N) ∧
      (receive_save w rem_buf k (some name) N).2.log =
        w.log ++ [Event.sys_open (some name), Event.sys_ftruncate N, Event.sys_mmap N,
                  Event.sys_read (N - min k N)] ∧
      (content.drop (min k N)).take (transport_read w.transport (N - min k N)).1.length =
        (transport_read w.transport (N - min k N)).1 ∧
      (receive_save w rem_buf k (some name) N).2.transport =
        (transport_read w.transport (N - min k N)).2 := by
  have hmin : (if k > N then N else k) = min k N := by
    split <;> omega
  have hg := transport_read_length_le w.transport (N - min k N)
  have hmk : min k N ≤ rem_buf.length := by omega
  refine ⟨write_at (memcpy (resize old N) rem_buf (min k N)) (min k N)
      (transport_read w.transport (N - min k N)).1, ?_, ?_, ?_, ?_, ?_, ?_⟩
  · simp only [receive_save, World.emit, World.write, hfile, hT, hM, hR, hmin]
    cases w.munmap_fails <;>
      simp [file_get_set_same _ name _ _ (file_get_set_same _ name _ _
        (file_get_set_same _ name _ _ hfile))]
  · simp [write_at, memcpy, resize_length]
    omega
  · simp [write_at, memcpy, resize_length, List.take_append_eq_append_take, hmk]
  · simp only [receive_save, World.emit, World.write, hfile, hT, hM, hR, hmin]
    cases w.munmap_fails <;> simp
  · simp [write_at, memcpy, resize_length, List.drop_append_eq_append_drop,
      List.take_append_eq_append_take, hmk]
  · simp only [receive_save, World.emit, World.write, hfile, hT, hM, hR, hmin]
    cases w.munmap_fails <;> simp

/-- An instance of `receive_save_post`: two buffered bytes, five declared. -/
theorem receive_save_post_witness :
    file_get scenario_world.files (bytes "foo") = some (bytes "old content") ∧
    2 ≤ (bytes "he").length ∧
    ∃ content,
      file_get (receive_save scenario_world (bytes "he") 2 (some (bytes "foo")) 5).2.files
        (bytes "foo") = some content ∧
      content.length = 5 ∧
      content.take (min 2 5) = (bytes "he").take (min 2 5) ∧
      (receive_save scenario_world (bytes "he") 2 (some (bytes "foo")) 5).2.log =
        scenario_world.log ++ [Event.sys_open (some (bytes "foo")), Event.sys_ftruncate 5,
          Event.sys_mmap 5, Event.sys_read (5 - min 2 5)] ∧
      (content.drop (min 2 5)).take
          (transport_read scenario_world.transport (5 - min 2 5)).1.length =
        (transport_read scenario_world.transport (5 - min 2 5)).1 ∧
      (receive_save scenario_world (bytes "he") 2 (some (bytes "foo")) 5).2.transport =
        (transport_read scenario_world.transport (5 - min 2 5)).2 :=
  ⟨by decide, by decide,
   receive_save_post scenario_world (bytes "he") 2 (bytes "foo") (bytes "old content") 5
     (by decide) (by decide) rfl rfl rfl⟩

/-- C6 fails on the code: the read holds `save`, `token: foo`, `data: 9` and the
three bytes `abc`; the terminator of the `data` line ends at offset 24 of the 27
bytes read, so 3 bytes of the read follow the line.  `receive_save` is called
with the suffix that starts there but with the suffix length 19 (27 less the 8
bytes of the `data` line alone): it copies nine bytes, six of them from beyond
the bytes read, and asks the socket for 0 bytes. -/
theorem receive_suffix_length_wrong :
    (handle_cmds scenario_world (bytes "save\ntoken: foo\ndata: 9\nabc" ++ [0, 88, 89, 90, 88, 89, 90])
        (bytes "save\ntoken: foo\ndata: 9\nabc").length after_greeting).map
      (fun r => (r.w.log, file_get r.w.files (bytes "foo"), r.w.transport)) =
      some ([Event.call_receive_save (bytes "abc" ++ [0, 88, 89, 90, 88, 89, 90]) 19
               (some (bytes "foo")) 9,
             Event.sys_open (some (bytes "foo")), Event.sys_ftruncate 9, Event.sys_mmap 9,
             Event.sys_read 0],
            some (bytes "abc" ++ [0, 88, 89, 90, 88, 89]), [[1, 2, 3]]) ∧
    (bytes "save\ntoken: foo\ndata: 9\nabc").length -
      (bytes "save\ntoken: foo\ndata: 9\n").length = 3 := by
  decide

/-- C7: when the number of bytes buffered after the `data` line is at least the
declared length (so always when the declared length is 0), the receive path
asks the socket for 0 bytes and the pending bytes of the socket are the same
before and after; stated for `receive_save`, and for `handle_line` with the
length it is given.  The scenario: in phase `CMD_CMD`, when the file `foo`
exists and `ftruncate`, `mmap` and `read` succeed, the read of the 29 bytes `open`,
`token: foo`, `data: 5`, `hello`, whatever lies in the array after them, writes
exactly the five bytes `hello` to the file `foo`; its only `read` asks for 0 bytes
and the bytes pending on the socket stay there. -/
theorem receive_no_extra_read :
    (∀ (w : World) (rem_buf : List Byte) (k : Nat) (filename : Option (List Byte)) (N : Nat),
      N ≤ k →
      (receive_save w rem_buf k filename N).2.transport = w.transport ∧
      ∃ evs, (receive_save w rem_buf k filename N).2.log = w.log ++ evs ∧
        ∀ n, Event.sys_read n ∈ evs → n = 0) ∧
    (∀ (w : World) (buf : List Byte) (len : Nat) (st : cmd),
      (handle_line w buf len st).st.file_len ≤
          len - (handle_line w buf len st).read_len.toNat →
      (handle_line w buf len st).w.transport = w.transport ∧
      ∃ evs, (handle_line w buf len st).w.log = w.log ++ evs ∧
        ∀ n, Event.sys_read n ∈ evs → n = 0) ∧
    (∀ (w : World) (st : cmd) (old stale : List Byte),
      st.state = CMD_STATE.CMD_CMD → file_get w.files (bytes "foo") = some old →
      w.ftruncate_fails = false → w.mmap_fails = false → w.read_fails = false →
      ∃ r, handle_cmds w (bytes "open\ntoken: foo\ndata: 5\nhello" ++ 0 :: stale) 29 st =
          some r ∧
        file_get r.w.files (bytes "foo") = some (bytes "hello") ∧
        r.w.transport = w.transport ∧
        r.w.log = w.log ++
          [Event.call_receive_save (bytes "hello" ++ 0 :: stale) 21 (some (bytes "foo")) 5,
           Event.sys_open (some (bytes "foo")), Event.sys_ftruncate 5, Event.sys_mmap 5,
           Event.sys_read 0]) := by
  refine ⟨?_, handle_line_transport, hello_scenario⟩
  intro w rem_buf k filename N h
  refine ⟨receive_save_transport w rem_buf k filename N h, ?_⟩
  obtain ⟨evs, h1, h2⟩ := receive_save_log w rem_buf k filename N
  refine ⟨evs, h1, fun n hn => ?_⟩
  have := h2 n hn
  omega

/-- An instance of `receive_no_extra_read`: the scenario in the world of the
scenarios, right after the greeting, the array holding the NUL of `main` and two
more bytes after the read. -/
theorem receive_no_extra_read_witness :
    ∃ r, handle_cmds scenario_world
          (bytes "open\ntoken: foo\ndata: 5\nhello" ++ 0 :: [88, 89]) 29 after_greeting =
          some r ∧
        file_get r.w.files (bytes "foo") = some (bytes "hello") ∧
        r.w.transport = scenario_world.transport ∧
        r.w.log = scenario_world.log ++
          [Event.call_receive_save (bytes "hello" ++ 0 :: [88, 89]) 21 (some (bytes "foo")) 5,
           Event.sys_open (some (bytes "foo")), Event.sys_ftruncate 5, Event.sys_mmap 5,
           Event.sys_read 0] :=
  receive_no_extra_read.2.2 scenario_world after_greeting (bytes "old content") [88, 89]
    rfl rfl rfl rfl rfl

/-- C8, the result of the line framer: `readline` returns `i + 1` for the
smallest index `i < len` that holds a line feed; when there is such an index
the result lies between 1 and `len`; it returns -1 exactly when none of the
first `len` bytes is a line feed. -/
theorem readline_result (buf : List Byte) (len : Nat) :
    (∀ i, i < len → buf[i]? = some 10 → (∀ j, j < i → buf[j]? ≠ some 10) →
        (readline buf len).1 = (i : Int) + 1) ∧
    ((∃ i, i < len ∧ buf[i]? = some 10) →
        1 ≤ (readline buf len).1 ∧ (readline buf len).1 ≤ (len : Int)) ∧
    ((readline buf len).1 = -1 ↔ ∀ j, j < len → buf[j]? ≠ some 10) := by
  refine ⟨?_, ?_, ?_⟩
  · intro i h1 h2 h3
    have h := (memchr_eq_some buf 10 len i).2 ⟨h1, h2, h3⟩
    simp [readline, h]
  · rintro ⟨i, h1, h2⟩
    cases hm : memchr buf 10 len with
    | none => exact absurd h2 ((memchr_eq_none buf 10 len).1 hm i h1)
    | some k =>
      have hk := ((memchr_eq_some buf 10 len k).1 hm).1
      simp only [readline, hm]
      omega
  · cases hm : memchr buf 10 len with
    | none =>
      simp only [readline, hm, true_iff]
      exact (memchr_eq_none buf 10 len).1 hm
    | some k =>
      obtain ⟨hk1, hk2, _⟩ := (memchr_eq_some buf 10 len k).1 hm
      simp only [readline, hm]
      constructor
      · intro h; omega
      · intro h; exact absurd hk2 (h k hk1)

/-- C9, the mutation of the line framer: when the first line feed is at index
`i < len`, `readline` keeps the length of the buffer, stores NUL at `i`, stores
NUL at `i - 1` when that byte is a carriage return, and leaves every other byte
as it was; without a line feed the buffer is unchanged. -/
theorem readline_mutation (buf : List Byte) (len : Nat) :
    (∀ i, i < len → buf[i]? = some 10 → (∀ j, j < i → buf[j]? ≠ some 10) →
        (readline buf len).2.length = buf.length ∧
        (readline buf len).2[i]? = some 0 ∧
        (∀ j, j + 1 = i → buf[j]? = some 13 → (readline buf len).2[j]? = some 0) ∧
        (∀ j, j ≠ i → ¬ (j + 1 = i ∧ buf[j]? = some 13) →
            (readline buf len).2[j]? = buf[j]?)) ∧
    ((∀ j, j < len → buf[j]? ≠ some 10) → (readline buf len).2 = buf) := by
  refine ⟨?_, ?_⟩
  · intro i h1 h2 h3
    have h := (memchr_eq_some buf 10 len i).2 ⟨h1, h2, h3⟩
    have hi : i < buf.length := memchr_lt_length h
    simp only [readline, h]
    refine ⟨?_, ?_, ?_, ?_⟩
    · split <;> simp
    · split <;> simp [List.getElem?_set, hi]
    · intro j hj hb
      subst hj
      have hj : j < buf.length := by omega
      have hb2 : buf[j] = 13 := by simpa [List.getElem?_eq_getElem hj] using hb
      simp [hb2, List.getElem?_set, hj]
    · intro j hj hn
      have hji : ¬ i = j := fun e => hj e.symm
      split
      · rename_i hc
        obtain ⟨hpos, hb⟩ := hc
        have hb' : buf[i - 1]? = some 13 := by
          have : i - 1 < buf.length := by omega
          simp [List.getD, List.getElem?_eq_getElem this] at hb ⊢
          exact hb
        have hjj : ¬ i - 1 = j := by
          intro e
          apply hn
          refine ⟨by omega, ?_⟩
          rw [← e]; exact hb'
        simp [List.getElem?_set, hji, hjj]
      · simp [List.getElem?_set, hji]
  · intro h
    have hm := (memchr_eq_none buf 10 len).2 h
    simp [readline, hm]

/-- C10: in phase `CMD_CMD`, when the text `L` of the next line (the line as the
C string that the code compares, see `line_text`) is not empty, `handle_line`
leaves no token, the declared length 0 and the phase `CMD_VAR`; the kind is
`CLOSE` exactly when `L` is `close`, `SAVE` exactly when `L` is `save`, and
`UNKNOWN` for every other `L`. -/
theorem command_name_line (w : World) (buf : List Byte) (len : Nat) (st : cmd)
    (L : List Byte) (hs : st.state = CMD_STATE.CMD_CMD) (hL : line_text buf len = some L)
    (hne : L ≠ []) :
    (handle_line w buf len st).st.filename = none ∧
    (handle_line w buf len st).st.file_len = 0 ∧
    (handle_line w buf len st).st.state = CMD_STATE.CMD_VAR ∧
    ((handle_line w buf len st).st.cmd_type = CMD_TYPE.CLOSE ↔ L = bytes "close") ∧
    ((handle_line w buf len st).st.cmd_type = CMD_TYPE.SAVE ↔ L = bytes "save") ∧
    (L ≠ bytes "close" → L ≠ bytes "save" →
      (handle_line w buf len st).st.cmd_type = CMD_TYPE.UNKNOWN) := by
  unfold line_text next_line at hL
  cases hm : memchr buf 10 len with
  | none => simp [hm] at hL
  | some i =>
    simp only [hm, Option.map_some', Option.some.injEq] at hL
    obtain ⟨h1, h2, h3, h4⟩ := buf_shape buf len i hm
    have hend : st.state ≠ CMD_STATE.CMD_END := by rw [hs]; decide
    have hvar : st.state ≠ CMD_STATE.CMD_VAR := by rw [hs]; decide
    obtain ⟨_, hst, _⟩ := handle_line_append w (buf.take i) (buf.drop (i + 1)) len st h2
      (by omega) hend (fun h => absurd h hvar)
    rw [← h1] at hst
    have hc : ¬ cstr (strip_cr (buf.take i)) = [] := by rw [hL]; exact hne
    rw [hst]
    simp only [text_step, hs, if_neg hc, kind_of]
    rw [hL]
    have ne1 : ¬ bytes "save" = bytes "close" := by decide
    have ne2 : ¬ bytes "close" = bytes "save" := by decide
    refine ⟨trivial, trivial, trivial, ?_, ?_, ?_⟩
    · by_cases e1 : L = bytes "save"
      · simp [e1, ne1]
      · by_cases e2 : L = bytes "close" <;> simp [e1, e2, ne2]
    · by_cases e1 : L = bytes "save"
      · simp [e1]
      · by_cases e2 : L = bytes "close" <;> simp [e1, e2, ne2]
    · intro e2 e1
      simp [e1, e2]

/-- An instance of `command_name_line`: the line `close`, ended by a carriage
return and a line feed, with a variable line after it. -/
theorem command_name_line_witness :
    after_greeting.state = CMD_STATE.CMD_CMD ∧
    line_text (bytes "close\r\ntoken: foo\n") 19 = some (bytes "close") ∧
    (handle_line scenario_world (bytes "close\r\ntoken: foo\n") 19 after_greeting).st.cmd_type =
      CMD_TYPE.CLOSE :=
  ⟨rfl, by decide,
   (command_name_line scenario_world (bytes "close\r\ntoken: foo\n") 19 after_greeting
     (bytes "close") rfl (by decide) (by decide)).2.2.2.1.2 rfl⟩

/-- C11, the handling of a variable line: in phase `CMD_VAR`, when the text of
the next line (see `line_text`) is `name`, a colon and `rest`, the name holding
no colon, `handle_line` keeps the phase `CMD_VAR` and the kind of command; the
value is `rest` without its leading spaces, later colons included.  If the name
is `token` the token becomes that value and nothing else changes; if the name is
`data` the declared length becomes `strtoul` of the value and nothing else
changes, and when the value is a string of decimal digits that denotes a number
up to `ULONG_MAX` the declared length is that number; for every other name the
parse state is unchanged. -/
theorem variable_line (w : World) (buf : List Byte) (len : Nat) (st : cmd)
    (name rest : List Byte) (hs : st.state = CMD_STATE.CMD_VAR)
    (hL : line_text buf len = some (name ++ 58 :: rest)) (hn : 58 ∉ name) :
    (handle_line w buf len st).st.state = CMD_STATE.CMD_VAR ∧
    (handle_line w buf len st).st.cmd_type = st.cmd_type ∧
    (name = bytes "token" →
      (handle_line w buf len st).st =
        { st with filename := some (rest.dropWhile (fun b => b = 32)) }) ∧
    (name = bytes "data" →
      (handle_line w buf len st).st =
        { st with file_len := strtoul (rest.dropWhile (fun b => b = 32)) }) ∧
    (name = bytes "data" → rest.dropWhile (fun b => b = 32) ≠ [] →
      (∀ b ∈ rest.dropWhile (fun b => b = 32), isdigit b = true) →
      numeral_value (rest.dropWhile (fun b => b = 32)) ≤ ULONG_MAX →
      (handle_line w buf len st).st.file_len =
        numeral_value (rest.dropWhile (fun b => b = 32))) ∧
    (name ≠ bytes "token" → name ≠ bytes "data" → (handle_line w buf len st).st = st) := by
  obtain ⟨i, hm, hT⟩ := line_text_eq buf len _ hL
  obtain ⟨hok, hstep, _⟩ := text_step_var st _ name rest hs hT hn
  have hend : st.state ≠ CMD_STATE.CMD_END := by rw [hs]; decide
  obtain ⟨_, h2, _⟩ := handle_line_next w buf len i st hm hend (fun _ => Or.inl hok)
  have h0 := cstr_no_nul (strip_cr (buf.take i))
  rw [hT] at h0
  have h0n : 0 ∉ name := fun h => h0 (List.mem_append_left _ h)
  have h0v : 0 ∉ rest.dropWhile (fun b => b = 32) := fun h =>
    h0 (List.mem_append_right _ (List.mem_cons_of_mem _
      ((List.dropWhile_sublist _).subset h)))
  rw [h2, hstep, handle_var_text _ _ _ h0n h0v]
  have ne : ¬ bytes "data" = bytes "token" := by decide
  refine ⟨?_, ?_, ?_, ?_, ?_, ?_⟩
  · split_ifs <;> exact hs
  · split_ifs <;> rfl
  · intro h; rw [if_pos h]
  · intro h; rw [if_neg (by rw [h]; exact ne), if_pos h]
  · intro h hne hd hmax
    rw [if_neg (by rw [h]; exact ne), if_pos h]
    show strtoul _ = _
    rw [strtoul_digits _ hne hd, if_neg (by omega)]
  · intro h1 h2; rw [if_neg h1, if_neg h2]

/-- An instance of `variable_line`: a `data` line with two spaces before the
number and a carriage return, and a `token` line whose value holds a colon. -/
theorem variable_line_witness :
    saving_foo.state = CMD_STATE.CMD_VAR ∧
    line_text (bytes "data:  42\r\nxy") 11 = some (bytes "data" ++ 58 :: bytes "  42") ∧
    (handle_line scenario_world (bytes "data:  42\r\nxy") 11 saving_foo).st =
      { saving_foo with file_len := 42 } ∧
    line_text (bytes "token: a:b c\n") 13 = some (bytes "token" ++ 58 :: bytes " a:b c") ∧
    (handle_line scenario_world (bytes "token: a:b c\n") 13 saving_foo).st =
      { saving_foo with filename := some (bytes "a:b c") } :=
  ⟨rfl, by decide,
   (variable_line scenario_world (bytes "data:  42\r\nxy") 11 saving_foo (bytes "data")
     (bytes "  42") rfl (by decide) (by decide)).2.2.2.1 rfl,
   by decide,
   (variable_line scenario_world (bytes "token: a:b c\n") 13 saving_foo (bytes "token")
     (bytes " a:b c") rfl (by decide) (by decide)).2.2.1 rfl⟩

/-- C12 as stated fails for the empty line: in phase `CMD_VAR` the empty line
makes `handle_line` return 1, the bytes consumed, not -1; `handle_cmds` goes on
with the rest of the buffer and reads the command `close` there. -/
theorem blank_line_not_propagated :
    (handle_line scenario_world (bytes "\nclose\n" ++ [0]) (bytes "\nclose\n").length
        saving_foo).read_len = 1 ∧
    (handle_cmds scenario_world (bytes "\nclose\n" ++ [0]) (bytes "\nclose\n").length
        saving_foo).map (fun r => (r.ret, r.st)) =
      some (7, ⟨CMD_STATE.CMD_VAR, CMD_TYPE.CLOSE, none, 0⟩) := by
  decide

/-- C12, amended: in phase `CMD_VAR`, an empty next line is consumed
(`handle_line` returns its length with the terminator, between 1 and `len`, and
the world is untouched) and a buffer without line terminator makes `handle_line`
return -1 and leave the buffer and the world as they are; in both cases the
phase is reset to `CMD_CMD` and the kind of command, the token and the declared
length are unchanged.  The -1 stops the loop of `handle_cmds` at once, at any
position of the cursor: the rest of that buffer is not processed. -/
theorem variable_phase_errors (w : World) (buf : List Byte) (len : Nat) (st : cmd)
    (hs : st.state = CMD_STATE.CMD_VAR) :
    (line_text buf len = some [] →
      1 ≤ (handle_line w buf len st).read_len ∧
      (handle_line w buf len st).read_len ≤ (len : Int) ∧
      (handle_line w buf len st).st = { st with state := CMD_STATE.CMD_CMD } ∧
      (handle_line w buf len st).w = w) ∧
    (next_line buf len = none →
      handle_line w buf len st = ⟨-1, buf, { st with state := CMD_STATE.CMD_CMD }, w⟩) ∧
    (next_line buf len = none → ∀ (fuel : Nat) (seen : List Byte) (total : Nat),
      total < len →
      handle_cmds_loop (fuel + 1) w seen buf len total st =
        some ⟨-1, seen ++ buf, { st with state := CMD_STATE.CMD_CMD }, w⟩) := by
  have hnone : next_line buf len = none →
      handle_line w buf len st = ⟨-1, buf, { st with state := CMD_STATE.CMD_CMD }, w⟩ := by
    intro h
    unfold next_line at h
    rw [Option.map_eq_none'] at h
    simp [handle_line, hs, readline, h]
  refine ⟨?_, hnone, ?_⟩
  · intro hL
    obtain ⟨i, hm, hT⟩ := line_text_eq buf len [] hL
    have hend : st.state ≠ CMD_STATE.CMD_END := by rw [hs]; decide
    obtain ⟨h1, h2, h3⟩ := handle_line_next w buf len i st hm hend (fun _ => cstr_nil_ok _ hT)
    have hi := ((memchr_eq_some buf 10 len i).1 hm).1
    refine ⟨by rw [h1]; omega, by rw [h1]; omega, ?_, ?_⟩
    · rw [h2]
      simp only [text_step, hs, if_pos hT]
    · rw [h3]
      unfold line_world
      rw [if_neg (fun h => h.2.1 hT)]
  · intro h fuel seen total hlt
    unfold handle_cmds_loop
    rw [if_pos hlt]
    simp only [hnone h, if_true]

/-- An instance of `variable_phase_errors`: an empty line ended by a carriage
return and a line feed, and a read that ends inside a variable line. -/
theorem variable_phase_errors_witness :
    saving_foo.state = CMD_STATE.CMD_VAR ∧
    line_text (bytes "\r\nclose\n" ++ [0]) 8 = some [] ∧
    (handle_line scenario_world (bytes "\r\nclose\n" ++ [0]) 8 saving_foo).st =
      { saving_foo with state := CMD_STATE.CMD_CMD } ∧
    next_line (bytes "token: fo" ++ [0]) 9 = none ∧
    handle_line scenario_world (bytes "token: fo" ++ [0]) 9 saving_foo =
      ⟨-1, bytes "token: fo" ++ [0], { saving_foo with state := CMD_STATE.CMD_CMD },
        scenario_world⟩ :=
  ⟨rfl, by decide,
   ((variable_phase_errors scenario_world (bytes "\r\nclose\n" ++ [0]) 8 saving_foo rfl).1
      (by decide)).2.2.1,
   by decide,
   (variable_phase_errors scenario_world (bytes "token: fo" ++ [0]) 9 saving_foo rfl).2.1
      (by decide)⟩

/-- C13: in phase `CMD_CMD`, when the text of the next line is empty (a lone
line feed, or a carriage return and a line feed), `handle_line` leaves the whole
parse state and the world unchanged and returns the length of the line with its
terminator, between 1 and `len`. -/
theorem empty_command_name_line (w : World) (buf : List Byte) (len : Nat) (st : cmd)
    (hs : st.state = CMD_STATE.CMD_CMD) (hL : line_text buf len = some []) :
    (handle_line w buf len st).st = st ∧
    1 ≤ (handle_line w buf len st).read_len ∧
    (handle_line w buf len st).read_len ≤ (len : Int) ∧
    (handle_line w buf len st).w = w := by
  obtain ⟨i, hm, hT⟩ := line_text_eq buf len [] hL
  have hend : st.state ≠ CMD_STATE.CMD_END := by rw [hs]; decide
  obtain ⟨h1, h2, h3⟩ := handle_line_next w buf len i st hm hend (fun _ => cstr_nil_ok _ hT)
  have hi := ((memchr_eq_some buf 10 len i).1 hm).1
  refine ⟨?_, by rw [h1]; omega, by rw [h1]; omega, ?_⟩
  · rw [h2]
    simp only [text_step, hs, if_pos hT]
  · rw [h3]
    unfold line_world
    rw [if_neg (fun h => h.2.1 hT)]

/-- An instance of `empty_command_name_line`: the empty line ended by a line
feed, and the one ended by a carriage return and a line feed. -/
theorem empty_command_name_line_witness :
    (line_text (bytes "\nsave\n") 6 = some [] ∧
      (handle_line scenario_world (bytes "\nsave\n") 6 after_greeting).st = after_greeting ∧
      (handle_line scenario_world (bytes "\nsave\n") 6 after_greeting).read_len = 1) ∧
    (line_text (bytes "\r\nsave\n") 7 = some [] ∧
      (handle_line scenario_world (bytes "\r\nsave\n") 7 saving_foo_done).st = saving_foo_done ∧
      (handle_line scenario_world (bytes "\r\nsave\n") 7 saving_foo_done).read_len = 2) :=
  ⟨⟨by decide,
    (empty_command_name_line scenario_world (bytes "\nsave\n") 6 after_greeting rfl
      (by decide)).1, by decide⟩,
   ⟨by decide,
    (empty_command_name_line scenario_world (bytes "\r\nsave\n") 7 saving_foo_done rfl
      (by decide)).1, by decide⟩⟩

/-- C14: from phase `CMD_CMD`, a read that holds the line `close` (ended by a
line feed, with or without a carriage return), then variable lines that have a
colon and of which none is named `data`, possibly none at all, then the blank
line or nothing, is processed to its end by `handle_cmds`; the kind of command
is then `CLOSE` and the world is the one before: no call is logged, no file is
touched and nothing is read from the socket. -/
theorem close_without_data_is_quiet (w : World) (st : cmd) (c : List Byte)
    (vars ends : List (List Byte)) (tail : List Byte)
    (hs : st.state = CMD_STATE.CMD_CMD)
    (hc : c = bytes "close" ∨ c = bytes "close\r")
    (hv : ∀ v ∈ vars, 10 ∉ v ∧ 0 ∉ v ∧ 58 ∈ v ∧ var_name v ≠ bytes "data")
    (he : ends = [] ∨ ends = [[]] ∨ ends = [[13]]) :
    ∃ r, handle_cmds w (wire (c :: (vars ++ ends)) ++ tail)
        (wire (c :: (vars ++ ends))).length st = some r ∧
      r.ret = ((wire (c :: (vars ++ ends))).length : Int) ∧
      r.st.cmd_type = CMD_TYPE.CLOSE ∧
      r.w = w := by
  have hend : st.state ≠ CMD_STATE.CMD_END := by rw [hs]; decide
  have hvar : st.state ≠ CMD_STATE.CMD_VAR := by rw [hs]; decide
  have hcs : strip_cr c = bytes "close" := by
    rcases hc with h | h <;> rw [h] <;> decide
  have hc10 : 10 ∉ c := by
    rcases hc with h | h <;> rw [h] <;> decide
  have h1 : text_step st (strip_cr c) = ⟨CMD_STATE.CMD_VAR, CMD_TYPE.CLOSE, none, 0⟩ := by
    rw [hcs]
    have n1 : ¬ cstr (bytes "close") = [] := by decide
    have n2 : kind_of (bytes "close") = CMD_TYPE.CLOSE := by decide
    simp only [text_step, hs, if_neg n1, n2]
  obtain ⟨a, b, c1, d⟩ := quiet_vars vars ⟨CMD_STATE.CMD_VAR, CMD_TYPE.CLOSE, none, 0⟩ rfl
    (fun v hvm => (hv v hvm).2)
  have hends : lines_ok (text_steps ⟨CMD_STATE.CMD_VAR, CMD_TYPE.CLOSE, none, 0⟩ vars) ends ∧
      lines_quiet (text_steps ⟨CMD_STATE.CMD_VAR, CMD_TYPE.CLOSE, none, 0⟩ vars) ends ∧
      (text_steps (text_steps ⟨CMD_STATE.CMD_VAR, CMD_TYPE.CLOSE, none, 0⟩ vars) ends).cmd_type =
        CMD_TYPE.CLOSE := by
    generalize text_steps ⟨CMD_STATE.CMD_VAR, CMD_TYPE.CLOSE, none, 0⟩ vars = s at c1 d
    have e0 : strip_cr ([] : List Byte) = [] := by decide
    have e13 : strip_cr [13] = [] := by decide
    have hb : ∀ T : List Byte, strip_cr T = [] →
        lines_ok s [T] ∧ lines_quiet s [T] ∧ (text_steps s [T]).cmd_type = CMD_TYPE.CLOSE := by
      intro T hT
      refine ⟨⟨fun _ => Or.inr hT, trivial⟩, ⟨?_, trivial⟩, ?_⟩
      · rw [hT]
        exact fun h => h.2.1 rfl
      · show (text_step s (strip_cr T)).cmd_type = _
        rw [hT]
        have n : cstr ([] : List Byte) = [] := rfl
        simp only [text_step, c1, if_pos n]
        exact d
    rcases he with h | h | h
    · rw [h]; exact ⟨trivial, trivial, d⟩
    · rw [h]; exact hb [] e0
    · rw [h]; exact hb [13] e13
  obtain ⟨r, hr1, hr2, hr3, hr4⟩ := handle_cmds_quiet w (c :: (vars ++ ends)) tail st
    (by
      intro L hL
      rcases List.mem_cons.1 hL with h | h
      · rw [h]; exact hc10
      · rcases List.mem_append.1 h with h | h
        · exact (hv L h).1
        · rcases he with e | e | e <;> rw [e] at h <;> simp at h <;> rw [h] <;> decide)
    hend
    ⟨fun h => absurd h hvar, by
      rw [h1, lines_ok_append]
      exact ⟨a, hends.1⟩⟩
    ⟨fun h => hvar h.1, by
      rw [h1, lines_quiet_append]
      exact ⟨b, hends.2.1⟩⟩
  refine ⟨r, hr1, hr3, ?_, hr4⟩
  rw [hr2]
  show (text_steps (text_step st (strip_cr c)) (vars ++ ends)).cmd_type = _
  rw [h1, text_steps_append]
  exact hends.2.2

/-- An instance of `close_without_data_is_quiet`: the read `close` and a blank
line, and the same with a `token` line. -/
theorem close_without_data_is_quiet_witness :
    (∃ r, handle_cmds scenario_world (bytes "close\n\n" ++ [0]) 7 after_greeting = some r ∧
      r.ret = 7 ∧ r.st.cmd_type = CMD_TYPE.CLOSE ∧ r.w = scenario_world) ∧
    (∃ r, handle_cmds scenario_world (bytes "close\ntoken: foo\n\n" ++ [0]) 18
        after_greeting = some r ∧
      r.ret = 18 ∧ r.st.cmd_type = CMD_TYPE.CLOSE ∧ r.w = scenario_world) :=
  ⟨close_without_data_is_quiet scenario_world after_greeting (bytes "close") [] [[]] [0]
    rfl (Or.inl rfl) (by simp) (Or.inr (Or.inl rfl)),
   close_without_data_is_quiet scenario_world after_greeting (bytes "close")
    [bytes "token: foo"] [[]] [0] rfl (Or.inl rfl) (by decide) (Or.inr (Or.inl rfl))⟩

/-- C15, the output of the send path: when `fstat` and `mmap` succeed and
`realpath` returns the string `r`, `send_open` returns 0 and writes to the
socket exactly `open`, `display-name:` with the file name, `real-path:` with `r`,
`data-on-save: yes`, `re-activate: yes`, `token:` with the file name, `data:` with
the length of the file in decimal, each followed by a line feed, then the bytes
of the file as they are, then a line feed, a dot and a line feed.  The length
field is a string of decimal digits that denotes the number of payload bytes
written.  The file name and `r` are printed as C strings. -/
theorem send_open_output (e : SendEnv) (filename r : List Byte)
    (hS : e.fstat_fails = false) (hM : e.mmap_fails = false) (hr : e.resolved = some r) :
    send_open e filename =
      (0, bytes "open\n" ++ (bytes "display-name: " ++ cstr filename ++ bytes "\n") ++
          (bytes "real-path: " ++ cstr r ++ bytes "\n") ++
          bytes "data-on-save: yes\n" ++ bytes "re-activate: yes\n" ++
          (bytes "token: " ++ cstr filename ++ bytes "\n") ++
          (bytes "data: " ++ decimal e.content.length ++ bytes "\n") ++
          e.content ++ bytes "\n.\n") ∧
    decimal e.content.length ≠ [] ∧
    (∀ b ∈ decimal e.content.length, isdigit b = true) ∧
    numeral_value (decimal e.content.length) = e.content.length := by
  refine ⟨?_, decimal_spec e.content.length⟩
  simp only [send_open, hS, hM, hr, printf_s, List.take_length]
  rfl

/-- An instance of `send_open_output`: a file of twelve bytes. -/
theorem send_open_output_witness :
    send_open ⟨false, false, bytes "hello world!", some (bytes "/home/me/foo")⟩ (bytes "foo") =
      (0, bytes ("open\ndisplay-name: foo\nreal-path: /home/me/foo\ndata-on-save: yes\n" ++
        "re-activate: yes\ntoken: foo\ndata: 12\nhello world!\n.\n")) :=
  (send_open_output ⟨false, false, bytes "hello world!", some (bytes "/home/me/foo")⟩
    (bytes "foo") (bytes "/home/me/foo") rfl rfl rfl).1

/-- C16 fails on the code: the sequence of lines `hi`, `save`, `token`, `bar`, none
of which holds a carriage return or a line feed, leaves the token `bar` with a
line feed after it when every line is ended by a line feed, and the empty
token when every line is ended by a carriage return and a line feed.  The line
`token` has no colon and is not rejected (the defect of C4): its value is read
from the bytes that follow the line in the array, which are the next line in
the first case and the NUL that `readline` stored over the line feed in the
second. -/
theorem terminator_changes_token :
    (handle_cmds scenario_world (bytes "hi\nsave\ntoken\nbar\n" ++ [0])
        (bytes "hi\nsave\ntoken\nbar\n").length cmd_zero).map (fun r => r.st) =
      some ⟨CMD_STATE.CMD_VAR, CMD_TYPE.SAVE, some (bytes "bar\n"), 0⟩ ∧
    (handle_cmds scenario_world (bytes "hi\r\nsave\r\ntoken\r\nbar\r\n" ++ [0])
        (bytes "hi\r\nsave\r\ntoken\r\nbar\r\n").length cmd_zero).map (fun r => r.st) =
      some ⟨CMD_STATE.CMD_VAR, CMD_TYPE.SAVE, some [], 0⟩ := by
  decide

/-- The equivalence of the terminators on well-formed inputs: for every
well-formed peer input (see `well_formed`, every variable line has a colon) of
which no line holds a carriage return or a line feed, and for every number
`k`, the parse state after the first `k` lines is the same whether every line
is ended by a carriage return and a line feed or by a line feed alone. -/
theorem terminator_equivalence (greeting : List Byte) (cmds : List Command)
    (tail1 tail2 : List Byte) (w1 w2 : World) (k : Nat)
    (hwf : well_formed greeting cmds)
    (hcr : ∀ L ∈ input_lines greeting cmds, 13 ∉ L) :
    ∃ st : cmd,
      (handle_cmds w1
          (wire (((input_lines greeting cmds).take k).map (fun L => L ++ [13])) ++ tail1)
          (wire (((input_lines greeting cmds).take k).map (fun L => L ++ [13]))).length
          cmd_zero).map (fun r => r.st) = some st ∧
      (handle_cmds w2 (wire ((input_lines greeting cmds).take k) ++ tail2)
          (wire ((input_lines greeting cmds).take k)).length
          cmd_zero).map (fun r => r.st) = some st := by
  obtain ⟨hok, h10⟩ := input_ok greeting cmds hwf
  have hend : cmd_zero.state ≠ CMD_STATE.CMD_END := by decide
  have hsub : ∀ L ∈ (input_lines greeting cmds).take k, L ∈ input_lines greeting cmds :=
    fun L hL => List.mem_of_mem_take hL
  have hokk := lines_ok_take _ k cmd_zero hok
  have hf : ∀ L ∈ (input_lines greeting cmds).take k,
      strip_cr ((fun L => L ++ [13]) L) = strip_cr L := by
    intro L hL
    show strip_cr (L ++ [13]) = strip_cr L
    rw [strip_cr_concat_cr, strip_cr_of_no_cr L (hcr L (hsub L hL))]
  obtain ⟨hts, hlo⟩ := text_steps_map (fun L => L ++ [13]) _ hf cmd_zero
  obtain ⟨r1, a1, b1, _⟩ := handle_cmds_lines w1
    (((input_lines greeting cmds).take k).map (fun L => L ++ [13])) tail1 cmd_zero
    (by
      intro L hL
      obtain ⟨L0, hL0, rfl⟩ := List.mem_map.1 hL
      intro h
      rcases List.mem_append.1 h with h | h
      · exact h10 L0 (hsub L0 hL0) h
      · simp at h)
    hend (hlo.2 hokk)
  obtain ⟨r2, a2, b2, _⟩ := handle_cmds_lines w2 ((input_lines greeting cmds).take k) tail2
    cmd_zero (fun L hL => h10 L (hsub L hL)) hend hokk
  refine ⟨text_steps cmd_zero ((input_lines greeting cmds).take k), ?_, ?_⟩
  · rw [a1, Option.map_some', b1, hts]
  · rw [a2, Option.map_some', b2]

/-- An instance of `terminator_equivalence`: two commands, all seven lines. -/
theorem terminator_equivalence_witness :
    well_formed (bytes "220 hi") [⟨bytes "save", [bytes "token: foo", bytes "data: 0"], []⟩,
        ⟨bytes "close", [bytes "token: foo"], []⟩] ∧
    ∃ st : cmd,
      (handle_cmds scenario_world
          (wire (((input_lines (bytes "220 hi")
            [⟨bytes "save", [bytes "token: foo", bytes "data: 0"], []⟩,
             ⟨bytes "close", [bytes "token: foo"], []⟩]).take 7).map (fun L => L ++ [13])) ++ [0])
          (wire (((input_lines (bytes "220 hi")
            [⟨bytes "save", [bytes "token: foo", bytes "data: 0"], []⟩,
             ⟨bytes "close", [bytes "token: foo"], []⟩]).take 7).map
               (fun L => L ++ [13]))).length
          cmd_zero).map (fun r => r.st) = some st ∧
      (handle_cmds scenario_world
          (wire ((input_lines (bytes "220 hi")
            [⟨bytes "save", [bytes "token: foo", bytes "data: 0"], []⟩,
             ⟨bytes "close", [bytes "token: foo"], []⟩]).take 7) ++ [0])
          (wire ((input_lines (bytes "220 hi")
            [⟨bytes "save", [bytes "token: foo", bytes "data: 0"], []⟩,
             ⟨bytes "close", [bytes "token: foo"], []⟩]).take 7)).length
          cmd_zero).map (fun r => r.st) = some st :=
  ⟨by unfold well_formed; decide,
   terminator_equivalence (bytes "220 hi")
     [⟨bytes "save", [bytes "token: foo", bytes "data: 0"], []⟩,
      ⟨bytes "close", [bytes "token: foo"], []⟩] [0] [0] scenario_world scenario_world 7
     (by unfold well_formed; decide) (by decide)⟩

/-- C17 fails on the code: `handle_cmds` gives the line framer the whole length
of the read at every position of the cursor.  For the read `hi`, line feed, `b`
(4 bytes) in an array that holds the NUL of `main` and a line feed after it, the
second call of the framer is given 4 bytes from offset 3 instead of the 1 that
remains: it finds the line feed at offset 5, outside the read, overwrites it,
and `handle_cmds` returns 6, more than the 4 bytes read.  With the remaining
length the framer would have found no terminator. -/
theorem framer_reads_past_the_read :
    (handle_cmds scenario_world (bytes "hi\nb" ++ [0, 10]) (bytes "hi\nb").length
        cmd_zero).map (fun r => (r.ret, r.buf)) =
      some (6, bytes "hi" ++ [0] ++ bytes "b" ++ [0, 0]) ∧
    (readline ((bytes "hi\nb" ++ [0, 10]).drop 3) (bytes "hi\nb").length).1 = 3 ∧
    (readline ((bytes "hi\nb" ++ [0, 10]).drop 3) ((bytes "hi\nb").length - 3)).1 = -1 := by
  decide

/-- C18, the invariant of the phase: every parse state that can be reached from
the initial one by calls of `handle_line` has the phase `CMD_HEADER`, `CMD_CMD` or
`CMD_VAR`, never `CMD_END`; one call leaves the phase as it is or takes it from
`CMD_HEADER` to `CMD_CMD`, from `CMD_CMD` to `CMD_VAR` or from `CMD_VAR` to `CMD_CMD`;
from `CMD_HEADER` the phase becomes `CMD_CMD` exactly when the buffer holds a
complete line, whatever the line; from `CMD_CMD` it becomes `CMD_VAR` exactly when
the text of the next line is not empty; the phase never comes back to
`CMD_HEADER`, and `CMD_VAR` is only entered from `CMD_CMD`. -/
theorem phase_invariant :
    (∀ st : cmd, Reachable st →
      st.state = CMD_STATE.CMD_HEADER ∨ st.state = CMD_STATE.CMD_CMD ∨
        st.state = CMD_STATE.CMD_VAR) ∧
    (∀ (w : World) (buf : List Byte) (len : Nat) (st : cmd),
      (handle_line w buf len st).st.state = st.state ∨
      (st.state = CMD_STATE.CMD_HEADER ∧
        (handle_line w buf len st).st.state = CMD_STATE.CMD_CMD) ∨
      (st.state = CMD_STATE.CMD_CMD ∧
        (handle_line w buf len st).st.state = CMD_STATE.CMD_VAR) ∨
      (st.state = CMD_STATE.CMD_VAR ∧
        (handle_line w buf len st).st.state = CMD_STATE.CMD_CMD)) ∧
    (∀ (w : World) (buf : List Byte) (len : Nat) (st : cmd),
      st.state = CMD_STATE.CMD_HEADER →
      ((handle_line w buf len st).st.state = CMD_STATE.CMD_CMD ↔ next_line buf len ≠ none)) ∧
    (∀ (w : World) (buf : List Byte) (len : Nat) (st : cmd),
      st.state = CMD_STATE.CMD_CMD →
      ((handle_line w buf len st).st.state = CMD_STATE.CMD_VAR ↔
        ∃ L, line_text buf len = some L ∧ L ≠ [])) ∧
    (∀ (w : World) (buf : List Byte) (len : Nat) (st : cmd),
      st.state ≠ CMD_STATE.CMD_HEADER →
      (handle_line w buf len st).st.state ≠ CMD_STATE.CMD_HEADER) ∧
    (∀ (w : World) (buf : List Byte) (len : Nat) (st : cmd),
      (handle_line w buf len st).st.state = CMD_STATE.CMD_VAR →
      st.state = CMD_STATE.CMD_CMD ∨ st.state = CMD_STATE.CMD_VAR) := by
  refine ⟨?_, handle_line_phase, ?_, ?_, ?_, ?_⟩
  · intro st h
    induction h with
    | init => exact Or.inl rfl
    | step w buf len st _ ih =>
      rcases handle_line_phase w buf len st with h | ⟨_, h⟩ | ⟨_, h⟩ | ⟨_, h⟩
      · rw [h]; exact ih
      · exact Or.inr (Or.inl h)
      · exact Or.inr (Or.inr h)
      · exact Or.inr (Or.inl h)
  · intro w buf len st hs
    have hend : st.state ≠ CMD_STATE.CMD_END := by rw [hs]; decide
    have hvar : st.state ≠ CMD_STATE.CMD_VAR := by rw [hs]; decide
    cases hm : memchr buf 10 len with
    | none =>
      rw [handle_line_no_line w buf len st hm hvar, hs]
      simp [next_line, hm]
    | some i =>
      obtain ⟨_, h2, _⟩ := handle_line_next w buf len i st hm hend (fun h => absurd h hvar)
      rw [h2]
      simp [text_step, hs, next_line, hm]
  · intro w buf len st hs
    have hend : st.state ≠ CMD_STATE.CMD_END := by rw [hs]; decide
    have hvar : st.state ≠ CMD_STATE.CMD_VAR := by rw [hs]; decide
    cases hm : memchr buf 10 len with
    | none =>
      rw [handle_line_no_line w buf len st hm hvar, hs]
      simp [line_text, next_line, hm]
    | some i =>
      obtain ⟨_, h2, _⟩ := handle_line_next w buf len i st hm hend (fun h => absurd h hvar)
      rw [h2]
      by_cases he : cstr (strip_cr (buf.take i)) = []
      · simp [text_step, hs, line_text, next_line, hm, he]
      · simp [text_step, hs, line_text, next_line, hm, he]
  · intro w buf len st hs h
    rcases handle_line_phase w buf len st with h1 | ⟨_, h1⟩ | ⟨_, h1⟩ | ⟨_, h1⟩
    · exact hs (h1 ▸ h)
    · rw [h1] at h; cases h
    · rw [h1] at h; cases h
    · rw [h1] at h; cases h
  · intro w buf len st h
    rcases handle_line_phase w buf len st with h1 | ⟨_, h1⟩ | ⟨h0, _⟩ | ⟨_, h1⟩
    · exact Or.inr (h1 ▸ h)
    · rw [h1] at h; cases h
    · exact Or.inl h0
    · rw [h1] at h; cases h

/-- C19, progress and termination: `handle_line` returns -1 or at least 1,
never 0; a turn of the loop of `handle_cmds` that does not stop with -1 goes on
with a strictly larger consumed total; with `len` turns allowed the loop always
returns, with -1 or with a total of at least `len`; on a read of length 0
`handle_cmds` returns 0 and leaves the buffer, the parse state and the world as
they are. -/
theorem progress_and_termination :
    (∀ (w : World) (buf : List Byte) (len : Nat) (st : cmd),
      (handle_line w buf len st).read_len = -1 ∨ 1 ≤ (handle_line w buf len st).read_len) ∧
    (∀ (fuel : Nat) (w : World) (seen buf : List Byte) (len total : Nat) (st : cmd),
      total < len → (handle_line w buf len st).read_len ≠ -1 →
      total < total + (handle_line w buf len st).read_len.toNat ∧
      handle_cmds_loop (fuel + 1) w seen buf len total st =
        handle_cmds_loop fuel (handle_line w buf len st).w
          (seen ++ (handle_line w buf len st).buf.take (handle_line w buf len st).read_len.toNat)
          ((handle_line w buf len st).buf.drop (handle_line w buf len st).read_len.toNat) len
          (total + (handle_line w buf len st).read_len.toNat) (handle_line w buf len st).st) ∧
    (∀ (w : World) (buf : List Byte) (len : Nat) (st : cmd),
      ∃ r, handle_cmds_loop len w [] buf len 0 st = some r ∧ handle_cmds w buf len st = some r ∧
        (r.ret = -1 ∨ (len : Int) ≤ r.ret)) ∧
    (∀ (w : World) (buf : List Byte) (st : cmd),
      handle_cmds w buf 0 st = some ⟨0, buf, st, w⟩) := by
  refine ⟨handle_line_ret, ?_, ?_, ?_⟩
  · intro fuel w seen buf len total st hlt hne
    refine ⟨?_, ?_⟩
    · rcases handle_line_ret w buf len st with h | h
      · exact absurd h hne
      · omega
    · conv_lhs => unfold handle_cmds_loop
      simp only [if_pos hlt, if_neg hne]
  · intro w buf len st
    obtain ⟨r, hr⟩ := handle_cmds_total w buf len st
    refine ⟨r, hr, hr, ?_⟩
    rcases handle_cmds_loop_ret len w [] buf len 0 st r hr with h | ⟨h, _⟩
    · exact Or.inl h
    · exact Or.inr h
  · intro w buf st
    unfold handle_cmds handle_cmds_loop
    simp

/-- C20: in phase `CMD_VAR`, whatever the kind of command and whatever the
token, a variable line named `data` makes `handle_line` call the receive path
with the bytes that follow the line, the length it was given less the length of
the line, the token as it is stored (also when there is none) and the length
parsed from the value; and whatever the world, hence whatever the receive path
does and returns, `handle_line` returns the length of the line and leaves the
parse state of before with the declared length set. -/
theorem data_triggers_receive (w : World) (buf : List Byte) (len : Nat) (st : cmd)
    (rest : List Byte) (hs : st.state = CMD_STATE.CMD_VAR)
    (hL : line_text buf len = some (bytes "data" ++ 58 :: rest)) :
    ∃ i, memchr buf 10 len = some i ∧
      (handle_line w buf len st).w =
        (receive_save
          (w.emit (Event.call_receive_save (buf.drop (i + 1)) (len - (i + 1)) st.filename
            (strtoul (rest.dropWhile (fun b => b = 32)))))
          (buf.drop (i + 1)) (len - (i + 1)) st.filename
          (strtoul (rest.dropWhile (fun b => b = 32)))).2 ∧
      ∀ w2 : World,
        (handle_line w2 buf len st).read_len = (i : Int) + 1 ∧
        (handle_line w2 buf len st).st =
          { st with file_len := strtoul (rest.dropWhile (fun b => b = 32)) } := by
  obtain ⟨i, hm, hT⟩ := line_text_eq buf len _ hL
  obtain ⟨hok, hstep, htake⟩ := text_step_var st _ (bytes "data") rest hs hT (by decide)
  have hend : st.state ≠ CMD_STATE.CMD_END := by rw [hs]; decide
  have h0 := cstr_no_nul (strip_cr (buf.take i))
  rw [hT] at h0
  have h0v : 0 ∉ rest.dropWhile (fun b => b = 32) := fun h =>
    h0 (List.mem_append_right _ (List.mem_cons_of_mem _
      ((List.dropWhile_sublist _).subset h)))
  have hst : text_step st (strip_cr (buf.take i)) =
      { st with file_len := strtoul (rest.dropWhile (fun b => b = 32)) } := by
    rw [hstep, handle_var_text _ _ _ (by decide) h0v, if_neg (by decide), if_pos rfl]
  have hi : (buf.take i).length = i := (buf_shape buf len i hm).2.2.1
  refine ⟨i, hm, ?_, ?_⟩
  · obtain ⟨_, _, h3⟩ := handle_line_next w buf len i st hm hend (fun _ => Or.inl hok)
    rw [h3]
    unfold line_world
    have hne : cstr (strip_cr (buf.take i)) ≠ [] := by rw [hT]; simp
    have hname : cstr ((strip_cr (buf.take i)).take (strcspn_colon (strip_cr (buf.take i)))) =
        bytes "data" := by
      rw [htake]; decide
    rw [if_pos ⟨hs, hne, hname⟩, hst, hi]
  · intro w2
    obtain ⟨h1, h2, _⟩ := handle_line_next w2 buf len i st hm hend (fun _ => Or.inl hok)
    exact ⟨h1, by rw [h2, hst]⟩

/-- An instance of `data_triggers_receive`: the command is `close` and no token
is stored; the receive path is called and its `open` fails. -/
theorem data_triggers_receive_witness :
    (handle_line scenario_world (bytes "data: 3\nabc") 11
        ⟨CMD_STATE.CMD_VAR, CMD_TYPE.CLOSE, none, 0⟩).w.log =
      [Event.call_receive_save (bytes "abc") 3 none 3, Event.sys_open none] ∧
    (⟨CMD_STATE.CMD_VAR, CMD_TYPE.CLOSE, none, 0⟩ : cmd).state = CMD_STATE.CMD_VAR ∧
    line_text (bytes "data: 3\nabc") 11 = some (bytes "data" ++ 58 :: bytes " 3") ∧
    ∃ i, memchr (bytes "data: 3\nabc") 10 11 = some i ∧
      (handle_line scenario_world (bytes "data: 3\nabc") 11
          ⟨CMD_STATE.CMD_VAR, CMD_TYPE.CLOSE, none, 0⟩).w =
        (receive_save
          (scenario_world.emit (Event.call_receive_save ((bytes "data: 3\nabc").drop (i + 1))
            (11 - (i + 1)) none (strtoul ((bytes " 3").dropWhile (fun b => b = 32)))))
          ((bytes "data: 3\nabc").drop (i + 1)) (11 - (i + 1)) none
          (strtoul ((bytes " 3").dropWhile (fun b => b = 32)))).2 ∧
      ∀ w2 : World,
        (handle_line w2 (bytes "data: 3\nabc") 11
          ⟨CMD_STATE.CMD_VAR, CMD_TYPE.CLOSE, none, 0⟩).read_len = (i : Int) + 1 ∧
        (handle_line w2 (bytes "data: 3\nabc") 11
          ⟨CMD_STATE.CMD_VAR, CMD_TYPE.CLOSE, none, 0⟩).st =
          { (⟨CMD_STATE.CMD_VAR, CMD_TYPE.CLOSE, none, 0⟩ : cmd) with
            file_len := strtoul ((bytes " 3").dropWhile (fun b => b = 32)) } :=
  ⟨by decide, rfl, by decide,
   data_triggers_receive scenario_world (bytes "data: 3\nabc") 11
     ⟨CMD_STATE.CMD_VAR, CMD_TYPE.CLOSE, none, 0⟩ (bytes " 3") rfl (by decide)⟩

end Rmate
